import Mathlib

/-!
Verification of the facebook_scraper repository's extraction / resolution /
normalization pipeline.  Strings are modelled as `List Char`; Python and
JavaScript functions from the source are translated into executable Lean
definitions, and the spec's claims are settled as theorems about those
definitions.
-/

namespace FBScraper

/-! ### Basic character and string helpers (models of Python/JS primitives) -/

/-- Whitespace predicate used to model Python's `str.strip` / `str.split`
and the regex class `\s`, and JavaScript's `String.prototype.trim`,
restricted to the ASCII whitespace characters these routines share. -/
def pySpace (c : Char) : Bool :=
  c = ' ' || c = '\t' || c = '\n' || c = '\r' || c = '\x0b' || c = '\x0c'

/-- Drop characters satisfying `p` from both ends of a list (the common
shape of Python's `str.strip()` and `str.strip("_")`). -/
def stripBoth (p : Char → Bool) (l : List Char) : List Char :=
  ((l.dropWhile p).reverse.dropWhile p).reverse

/-- Model of Python `str.strip()` (and JS `trim()`): drop whitespace from
both ends. -/
def pyStrip (l : List Char) : List Char :=
  stripBoth pySpace l

/-- Model of Python `str.lower()`, adequate for the ASCII alphabet the
program compares against. -/
def lowerStr (l : List Char) : List Char :=
  l.map Char.toLower

/-- Value of a digit string, as Python's `int()` computes it on a run of
ASCII digits. -/
def natOfDigits (ds : List Char) : Nat :=
  ds.foldl (fun n c => n * 10 + (c.toNat - '0'.toNat)) 0

/-- Whether `l` starts with `pre` (JS `startsWith`, regex `^...` anchors). -/
def startsWithL : List Char → List Char → Bool
  | _, [] => true
  | [], _ :: _ => false
  | a :: as, b :: bs => a = b && startsWithL as bs

/-- Substring containment, modelling Python's `x in s` on strings. -/
def containsSub (hay needle : List Char) : Bool :=
  if startsWithL hay needle then true
  else
    match hay with
    | [] => false
    | _ :: t => containsSub t needle

/-! ### Model of `urllib.parse.urljoin`

The repository calls `urljoin(page_url, href)` from the standard library.
The model below covers the reference shapes the program produces:
absolute `http(s)` URLs are returned unchanged, scheme-relative (`//...`)
references take the base's scheme, root-relative (`/...`) references take
the base's scheme and network location, and other references are resolved
against the base path's directory (dot segments are not normalized, which
matches `urljoin`'s behaviour of leaving `..` segments in a netloc-bearing
result only in shapes this program never builds). -/

def hasHttpScheme (u : List Char) : Bool :=
  startsWithL u ("http://".toList) || startsWithL u ("https://".toList)

/-- Split an `http(s)` base URL into its `scheme://` part and the rest. -/
def dropSchemePart (u : List Char) : Option (List Char × List Char) :=
  if startsWithL u ("https://".toList) then some ("https://".toList, u.drop 8)
  else if startsWithL u ("http://".toList) then some ("http://".toList, u.drop 7)
  else none

def urljoin (base url : List Char) : List Char :=
  if base = [] then url
  else if url = [] then base
  else if hasHttpScheme url then url
  else
    match dropSchemePart base with
    | none => url
    | some (sch, rest) =>
      let netloc := rest.takeWhile (fun c => c ≠ '/')
      let path := rest.dropWhile (fun c => c ≠ '/')
      if startsWithL url ("//".toList) then sch.takeWhile (fun c => c ≠ '/') ++ url
      else if startsWithL url ("/".toList) then sch ++ netloc ++ url
      else
        let dir := (path.reverse.dropWhile (fun c => c ≠ '/')).reverse
        let dir2 := if dir = [] then ['/'] else dir
        sch ++ netloc ++ dir2 ++ url

/-! ### `facebook_adapter.clean_author` -/

def unknownAuthor : List Char := "Unknown Author".toList

def authorStoplist : List (List Char) :=
  ["comment".toList, "reply".toList, "shared".toList, "share".toList]

/-- One iteration of the `clean_author` filtering loop: `none` when the
candidate is skipped (`continue`), `some` of the stripped candidate when
it is appended to `filtered`. -/
def authorKeep (a : List Char) : Option (List Char) :=
  if a = [] then none
  else
    let a2 := pyStrip a
    if a2.length < 2 then none
    else if lowerStr a2 ∈ authorStoplist then none
    else some a2

/-- `facebook_adapter.clean_author`. -/
def clean_author (author_list : List (List Char)) : List Char :=
  if author_list = [] then unknownAuthor
  else
    match author_list.filterMap authorKeep with
    | [] => unknownAuthor
    | x :: _ => x

/-! ### `facebook_adapter.clean_timestamp` -/

/-- Stable insertion into a list sorted by descending string length:
the new element goes after every element that is strictly longer
(Python's `sorted(key=len, reverse=True)` is stable). -/
def insertByLenDesc (x : List Char) : List (List Char) → List (List Char)
  | [] => [x]
  | y :: ys => if x.length < y.length then y :: insertByLenDesc x ys else x :: y :: ys

/-- Model of `sorted(ts_list, key=len, reverse=True)` (a stable sort). -/
def sortByLenDesc : List (List Char) → List (List Char)
  | [] => []
  | x :: xs => insertByLenDesc x (sortByLenDesc xs)

/-- `facebook_adapter.clean_timestamp`. -/
def clean_timestamp (ts_list : List (List Char)) : List Char :=
  match ts_list with
  | [] => []
  | _ :: _ => (sortByLenDesc ts_list).headD []

/-- Maximum length among a list of strings. -/
def maxLen (l : List (List Char)) : Nat :=
  l.foldr (fun x m => max x.length m) 0

/-! ### `facebook_adapter.extract_permalink` -/

structure Link where
  href : List Char
  text : List Char
deriving DecidableEq

def permalinkMarkers : List (List Char) :=
  ["/posts/".toList, "permalink".toList, "__cft__".toList,
   "multi_permalinks".toList, "__tn__".toList]

/-- The sequence of marker tests in `extract_permalink`'s loop body: each
of them returns `abs_href` itself, so the body is equivalent to this
disjunction. -/
def markerMatch (u : List Char) : Bool :=
  permalinkMarkers.any (fun m => containsSub u m)

/-- The `for lk in links` loop of `extract_permalink`. -/
def permalinkScan (page_url : List Char) : List Link → Option (List Char)
  | [] => none
  | lk :: rest =>
    let absHref := urljoin page_url lk.href
    if markerMatch absHref then some absHref else permalinkScan page_url rest

/-- `facebook_adapter.extract_permalink`. -/
def extract_permalink (links : List Link) (page_url : List Char) : List Char :=
  match links with
  | [] => []
  | l0 :: _ =>
    match permalinkScan page_url links with
    | some u => u
    | none => urljoin page_url l0.href

/-! ### Lemmas about the sorting and scanning helpers -/

theorem insertByLenDesc_ne_nil (x : List Char) (l : List (List Char)) :
    insertByLenDesc x l ≠ [] := by
  cases l with
  | nil => simp [insertByLenDesc]
  | cons y ys =>
    simp only [insertByLenDesc]
    split <;> simp

theorem sortByLenDesc_ne_nil (l : List (List Char)) (h : l ≠ []) :
    sortByLenDesc l ≠ [] := by
  cases l with
  | nil => exact absurd rfl h
  | cons x xs => exact insertByLenDesc_ne_nil x (sortByLenDesc xs)

theorem maxLen_cons (x : List Char) (xs : List (List Char)) :
    maxLen (x :: xs) = max x.length (maxLen xs) := rfl

theorem find?_max_sortHead : ∀ l : List (List Char), l ≠ [] →
    l.find? (fun x => x.length == maxLen l) = some ((sortByLenDesc l).headD []) := by
  intro l
  induction l with
  | nil => intro h; exact absurd rfl h
  | cons x xs ih =>
    intro _
    by_cases hne : xs = []
    · subst hne
      have hmax : maxLen [x] = x.length := by
        simp [maxLen]
      rw [@List.find?_cons_of_pos _ (fun z : List Char => z.length == maxLen [x]) x []
        (by simp [hmax])]
      simp [sortByLenDesc, insertByLenDesc]
    · have ihx := ih hne
      have hsne : sortByLenDesc xs ≠ [] := sortByLenDesc_ne_nil xs hne
      obtain ⟨y, ys, hys⟩ : ∃ y ys, sortByLenDesc xs = y :: ys := by
        cases h' : sortByLenDesc xs with
        | nil => exact absurd h' hsne
        | cons a b => exact ⟨a, b, rfl⟩
      have hylen : y.length = maxLen xs := by
        have h2 := List.find?_some ihx
        rw [hys] at h2
        simpa using h2
      by_cases hc : maxLen xs ≤ x.length
      · have hnotlt : ¬ x.length < y.length := by omega
        have hpred : ((fun z : List Char => z.length == maxLen (x :: xs)) x) = true := by
          simp only [maxLen_cons]
          simp [Nat.max_eq_left hc]
        rw [@List.find?_cons_of_pos _ (fun z : List Char => z.length == maxLen (x :: xs)) x xs hpred]
        simp [sortByLenDesc, hys, insertByLenDesc, hnotlt]
      · have hlt : x.length < maxLen xs := by omega
        have hmaxeq : maxLen (x :: xs) = maxLen xs := by
          rw [maxLen_cons]; omega
        have hpred : ¬ ((fun z : List Char => z.length == maxLen (x :: xs)) x) = true := by
          simp only [hmaxeq]
          simp
          omega
        rw [@List.find?_cons_of_neg _ (fun z : List Char => z.length == maxLen (x :: xs)) x xs hpred]
        have hxy : x.length < y.length := by omega
        calc List.find? (fun z : List Char => z.length == maxLen (x :: xs)) xs
            = List.find? (fun z : List Char => z.length == maxLen xs) xs := by rw [hmaxeq]
          _ = some ((sortByLenDesc xs).headD []) := ihx
          _ = some ((sortByLenDesc (x :: xs)).headD []) := by
              simp [sortByLenDesc, hys, insertByLenDesc, hxy]

/-- Claim C2 --- `resolveTimestamp` (`clean_timestamp`) returns the empty
string on the empty list, and on a non-empty list returns precisely the
first element (in original order) whose length attains the maximum, i.e.
the longest candidate with ties broken by first-seen order. -/
theorem clean_timestamp_longest_first :
    clean_timestamp [] = [] ∧
    ∀ l : List (List Char), l ≠ [] →
      l.find? (fun x => x.length == maxLen l) = some (clean_timestamp l) := by
  constructor
  · rfl
  · intro l h
    have := find?_max_sortHead l h
    cases l with
    | nil => exact absurd rfl h
    | cons x xs =>
      rw [this]
      rfl

/-- Witness for C2: the spec's own example, `["2h", "14 November at 10:23"]`,
resolves to the longest candidate. -/
theorem clean_timestamp_longest_first_witness :
    clean_timestamp ["2h".toList, "14 November at 10:23".toList] =
      "14 November at 10:23".toList ∧
    List.find? (fun x => x.length == maxLen ["2h".toList, "14 November at 10:23".toList])
      ["2h".toList, "14 November at 10:23".toList] =
      some (clean_timestamp ["2h".toList, "14 November at 10:23".toList]) :=
  ⟨by decide, clean_timestamp_longest_first.2 _ (by decide)⟩

theorem permalinkScan_eq_find? (p : List Char) :
    ∀ links : List Link, permalinkScan p links =
      (links.map (fun lk => urljoin p lk.href)).find? markerMatch := by
  intro links
  induction links with
  | nil => rfl
  | cons lk rest ih =>
    simp only [permalinkScan, List.map_cons]
    by_cases h : markerMatch (urljoin p lk.href)
    · simp [h, List.find?_cons_of_pos]
    · rw [List.find?_cons_of_neg _ (by simpa using h)]
      simpa [h] using ih

/-- Claim C3 --- `resolvePermalink` (`extract_permalink`): on the empty
list it returns the empty string; otherwise it returns the first
absolutized href containing one of the markers `/posts/`, `permalink`,
`__cft__`, `multi_permalinks`, `__tn__`, and if no absolutized href
matches any marker it returns the first link's absolutized href. -/
theorem extract_permalink_first_marker :
    (∀ p, extract_permalink [] p = []) ∧
    (∀ (links : List Link) (p u : List Char),
      (links.map (fun lk => urljoin p lk.href)).find? markerMatch = some u →
      extract_permalink links p = u) ∧
    (∀ (l0 : Link) (rest : List Link) (p : List Char),
      ((l0 :: rest).map (fun lk => urljoin p lk.href)).find? markerMatch = none →
      extract_permalink (l0 :: rest) p = urljoin p l0.href) := by
  refine ⟨fun _ => rfl, ?_, ?_⟩
  · intro links p u h
    cases links with
    | nil => simp at h
    | cons l0 rest =>
      simp only [extract_permalink]
      rw [permalinkScan_eq_find? p, h]
  · intro l0 rest p h
    simp only [extract_permalink]
    rw [permalinkScan_eq_find? p, h]

/-- Witness for C3: the spec's examples --- a `/posts/` link is
absolutized and selected; with no marker matches the first link's
absolutized href is the fallback. -/
theorem extract_permalink_first_marker_witness :
    extract_permalink [⟨"/x/posts/123".toList, []⟩] ("https://site.example/".toList) =
      "https://site.example/x/posts/123".toList ∧
    extract_permalink [⟨"/a".toList, []⟩, ⟨"/b".toList, []⟩]
      ("https://site.example/".toList) = "https://site.example/a".toList :=
  ⟨extract_permalink_first_marker.2.1 _ _ _ (by decide),
   (extract_permalink_first_marker.2.2 ⟨"/a".toList, []⟩ [⟨"/b".toList, []⟩] _
      (by decide)).trans (by decide)⟩

theorem authorKeep_eq_strip (a b : List Char) (h : authorKeep a = some b) :
    b = pyStrip a := by
  unfold authorKeep at h
  split at h
  · exact absurd h (by simp)
  · dsimp only at h
    split at h
    · exact absurd h (by simp)
    · split at h
      · exact absurd h (by simp)
      · exact (Option.some.inj h).symm

theorem head?_filterMap_authorKeep : ∀ l : List (List Char),
    (l.filterMap authorKeep).head? =
      (l.find? (fun a => (authorKeep a).isSome)).bind authorKeep := by
  intro l
  induction l with
  | nil => rfl
  | cons a t ih =>
    cases h : authorKeep a with
    | none =>
      rw [List.filterMap_cons_none h, List.find?_cons_of_neg _ (by simp [h])]
      exact ih
    | some b =>
      rw [List.filterMap_cons_some h, List.find?_cons_of_pos _ (by simp [h])]
      simp [h]

/-- Claim C4 --- `resolveAuthor` (`clean_author`) drops blank, short and
stoplisted candidates and returns the first survivor (in its stripped
form), falling back to the sentinel `"Unknown Author"` when no candidate
survives (in particular on the empty list). -/
theorem clean_author_first_survivor :
    ∀ l : List (List Char),
      (l.find? (fun a => (authorKeep a).isSome) = none →
        clean_author l = unknownAuthor) ∧
      (∀ a, l.find? (fun a => (authorKeep a).isSome) = some a →
        clean_author l = pyStrip a) := by
  intro l
  constructor
  · intro h
    have hfm : (l.filterMap authorKeep).head? = none := by
      rw [head?_filterMap_authorKeep, h]; rfl
    have hnil : l.filterMap authorKeep = [] := by
      cases h' : l.filterMap authorKeep with
      | nil => rfl
      | cons x xs => rw [h'] at hfm; simp at hfm
    unfold clean_author
    split
    · rfl
    · rw [hnil]
  · intro a h
    have hpred := List.find?_some h
    have hmem := List.mem_of_find?_eq_some h
    have hkeep : ∃ b, authorKeep a = some b := by
      cases hk : authorKeep a with
      | none => rw [hk] at hpred; simp at hpred
      | some b => exact ⟨b, rfl⟩
    obtain ⟨b, hb⟩ := hkeep
    have hbs : b = pyStrip a := authorKeep_eq_strip a b hb
    have hfm : (l.filterMap authorKeep).head? = some b := by
      rw [head?_filterMap_authorKeep, h]
      simpa using hb
    obtain ⟨rest, hrest⟩ : ∃ rest, l.filterMap authorKeep = b :: rest := by
      cases h' : l.filterMap authorKeep with
      | nil => rw [h'] at hfm; simp at hfm
      | cons x xs =>
        rw [h'] at hfm
        simp only [List.head?_cons, Option.some.injEq] at hfm
        exact ⟨xs, by rw [hfm]⟩
    have hlne : l ≠ [] := by
      intro he
      rw [he] at h
      simp at h
    simp only [clean_author, if_neg hlne, hrest]
    exact hbs

/-- Witness for C4: the spec's examples --- `[]` maps to the sentinel and
the stoplisted `"Reply"` is skipped in favour of `"Jane Doe"`. -/
theorem clean_author_first_survivor_witness :
    clean_author [] = unknownAuthor ∧
    clean_author ["Reply".toList, "Jane Doe".toList] = "Jane Doe".toList :=
  ⟨(clean_author_first_survivor []).1 (by decide),
   ((clean_author_first_survivor _).2 ("Jane Doe".toList) (by decide)).trans (by decide)⟩

/-! ### Generic lemmas about `dropWhile` / `stripBoth` -/

theorem length_dropWhile_le (p : Char → Bool) (l : List Char) :
    (l.dropWhile p).length ≤ l.length :=
  (List.dropWhile_suffix p).length_le

theorem head?_dropWhile_false (p : Char → Bool) (l : List Char) (c : Char)
    (h : (l.dropWhile p).head? = some c) : p c = false := by
  have h2 := List.head?_dropWhile_not p l
  rw [h] at h2
  exact h2

theorem stripBoth_head (p : Char → Bool) (l : List Char) (c : Char)
    (h : (stripBoth p l).head? = some c) : p c = false := by
  unfold stripBoth at h
  set m := l.dropWhile p with hm
  have hpre : ((m.reverse.dropWhile p).reverse) <+: m := by
    have := List.rdropWhile_prefix p m
    simpa [List.rdropWhile] using this
  obtain ⟨t, ht⟩ := hpre
  have hne : (m.reverse.dropWhile p).reverse ≠ [] := by
    intro he
    rw [he] at h
    simp at h
  have hh : m.head? = some c := by
    rw [← ht, List.head?_append_of_ne_nil _ hne, h]
  exact head?_dropWhile_false p l c hh

theorem stripBoth_getLast (p : Char → Bool) (l : List Char) (c : Char)
    (h : (stripBoth p l).getLast? = some c) : p c = false := by
  unfold stripBoth at h
  rw [List.getLast?_reverse] at h
  exact head?_dropWhile_false p (l.dropWhile p).reverse c h

theorem stripBoth_infixOf (p : Char → Bool) (l : List Char) :
    stripBoth p l <:+: l := by
  unfold stripBoth
  have h1 : ((l.dropWhile p).reverse.dropWhile p).reverse <+: l.dropWhile p := by
    have := List.rdropWhile_prefix p (l.dropWhile p)
    simpa [List.rdropWhile] using this
  obtain ⟨t, ht⟩ := h1
  obtain ⟨s, hs⟩ := @List.dropWhile_suffix Char l p
  refine ⟨s, t, ?_⟩
  rw [List.append_assoc, ht, hs]

theorem stripBoth_eq_self (p : Char → Bool) (l : List Char)
    (h1 : ∀ c, l.head? = some c → p c = false)
    (h2 : ∀ c, l.getLast? = some c → p c = false) :
    stripBoth p l = l := by
  cases l with
  | nil => rfl
  | cons a t =>
    have ha : p a = false := h1 a rfl
    have hd : (a :: t).dropWhile p = a :: t :=
      List.dropWhile_cons_of_neg (by simp [ha])
    unfold stripBoth
    rw [hd]
    cases hr : (a :: t).reverse with
    | nil => simp at hr
    | cons b s =>
      have hb : (a :: t).getLast? = some b := by
        rw [← List.head?_reverse, hr]
        rfl
      have hpb : p b = false := h2 b hb
      have hds : List.dropWhile p (b :: s) = b :: s :=
        List.dropWhile_cons_of_neg (by simp [hpb])
      rw [hds]
      have h3 := congrArg List.reverse hr
      simpa using h3.symm

theorem stripBoth_mem (p : Char → Bool) (l : List Char) (c : Char)
    (h : c ∈ stripBoth p l) : c ∈ l :=
  List.IsInfix.subset (stripBoth_infixOf p l) h

/-! ### `utils.slugify_url` -/

/-- The anchored `re.sub(r"^https?://", "", url)` step: remove a leading
`http://` or `https://` scheme (`s?` is greedy, so `https://` is removed
when present). -/
def dropSchemeSlug (l : List Char) : List Char :=
  if startsWithL l ("https://".toList) then l.drop 8
  else if startsWithL l ("http://".toList) then l.drop 7
  else l

/-- The `re.sub(r"[^A-Za-z0-9]+", "_", url)` step: each maximal run of
non-alphanumeric characters becomes a single underscore.  The boolean
records whether the scanner is inside a non-alphanumeric run (whose
single replacement underscore has already been emitted). -/
def slugReplaceAux : List Char → Bool → List Char
  | [], _ => []
  | c :: cs, inRun =>
    if Char.isAlphanum c then c :: slugReplaceAux cs false
    else if inRun then slugReplaceAux cs true
    else '_' :: slugReplaceAux cs true

def slugReplace (l : List Char) : List Char :=
  slugReplaceAux l false

/-- The `re.sub(r"_+", "_", url)` step: collapse each maximal run of
underscores to a single underscore (the boolean records being inside an
underscore run). -/
def collapseUnderscoresAux : List Char → Bool → List Char
  | [], _ => []
  | c :: cs, inRun =>
    if c = '_' then
      if inRun then collapseUnderscoresAux cs true
      else '_' :: collapseUnderscoresAux cs true
    else c :: collapseUnderscoresAux cs false

def collapseUnderscores (l : List Char) : List Char :=
  collapseUnderscoresAux l false

/-- `utils.slugify_url`. -/
def slugify_url (url : List Char) : List Char :=
  if url = [] then "page".toList
  else
    let u1 := pyStrip url
    let u2 := dropSchemeSlug u1
    let u3 := slugReplace u2
    let u4 := collapseUnderscores u3
    let u5 := stripBoth (fun c => c = '_') u4
    if u5 = [] then "page".toList else u5

theorem slugReplaceAux_chars :
    ∀ (l : List Char) (b : Bool) (c : Char), c ∈ slugReplaceAux l b →
      Char.isAlphanum c ∨ c = '_' := by
  intro l
  induction l with
  | nil => intro b c h; simp [slugReplaceAux] at h
  | cons a t ih =>
    intro b c h
    simp only [slugReplaceAux] at h
    by_cases ha : Char.isAlphanum a
    · rw [if_pos ha] at h
      rcases List.mem_cons.mp h with rfl | h
      · exact Or.inl ha
      · exact ih false c h
    · rw [if_neg ha] at h
      cases b with
      | true =>
        rw [if_pos rfl] at h
        exact ih true c h
      | false =>
        rw [if_neg (by simp)] at h
        rcases List.mem_cons.mp h with rfl | h
        · exact Or.inr rfl
        · exact ih true c h

theorem collapseUnderscoresAux_chars :
    ∀ (l : List Char) (b : Bool) (c : Char), c ∈ collapseUnderscoresAux l b →
      c ∈ l ∨ c = '_' := by
  intro l
  induction l with
  | nil => intro b c h; simp [collapseUnderscoresAux] at h
  | cons a t ih =>
    intro b c h
    simp only [collapseUnderscoresAux] at h
    by_cases ha : a = '_'
    · rw [if_pos ha] at h
      cases b with
      | true =>
        rw [if_pos rfl] at h
        rcases ih true c h with h2 | h2
        · exact Or.inl (List.mem_cons_of_mem a h2)
        · exact Or.inr h2
      | false =>
        rw [if_neg (by simp)] at h
        rcases List.mem_cons.mp h with rfl | h
        · exact Or.inr rfl
        · rcases ih true c h with h2 | h2
          · exact Or.inl (List.mem_cons_of_mem a h2)
          · exact Or.inr h2
    · rw [if_neg ha] at h
      rcases List.mem_cons.mp h with rfl | h
      · exact Or.inl (List.mem_cons_self _ _)
      · rcases ih false c h with h2 | h2
        · exact Or.inl (List.mem_cons_of_mem a h2)
        · exact Or.inr h2

theorem collapseUnderscoresAux_head_true :
    ∀ (l : List Char) (c : Char),
      (collapseUnderscoresAux l true).head? = some c → c ≠ '_' := by
  intro l
  induction l with
  | nil => intro c h; simp [collapseUnderscoresAux] at h
  | cons a t ih =>
    intro c h
    simp only [collapseUnderscoresAux] at h
    by_cases ha : a = '_'
    · rw [if_pos ha] at h
      simp only [if_true] at h
      exact ih c h
    · rw [if_neg ha] at h
      simp only [List.head?_cons, Option.some.injEq] at h
      rw [← h]
      exact ha

theorem collapseUnderscoresAux_chain :
    ∀ (l : List Char) (b : Bool),
      List.Chain' (fun x y => ¬(x = '_' ∧ y = '_')) (collapseUnderscoresAux l b) := by
  intro l
  induction l with
  | nil => intro b; simp [collapseUnderscoresAux]
  | cons a t ih =>
    intro b
    simp only [collapseUnderscoresAux]
    by_cases ha : a = '_'
    · rw [if_pos ha]
      cases b with
      | true =>
        rw [if_pos rfl]
        exact ih true
      | false =>
        rw [if_neg (by simp)]
        rw [List.chain'_cons']
        refine ⟨?_, ih true⟩
        intro y hy
        have hne := collapseUnderscoresAux_head_true t y hy
        intro hcon
        exact hne hcon.2
    · rw [if_neg ha]
      rw [List.chain'_cons']
      refine ⟨?_, ih false⟩
      intro y _
      intro hcon
      exact ha hcon.1

/-- Claim C10 --- `slugify_url` always yields a non-empty string of ASCII
alphanumerics and underscores, with no leading or trailing underscore and
no two consecutive underscores, falling back to `"page"` (in particular
on the empty input). -/
theorem slugify_url_filesystem_safe :
    slugify_url [] = "page".toList ∧
    ∀ url : List Char,
      slugify_url url ≠ [] ∧
      (∀ c ∈ slugify_url url, Char.isAlphanum c ∨ c = '_') ∧
      (∀ c, (slugify_url url).head? = some c → c ≠ '_') ∧
      (∀ c, (slugify_url url).getLast? = some c → c ≠ '_') ∧
      List.Chain' (fun x y => ¬(x = '_' ∧ y = '_')) (slugify_url url) := by
  have hpage1 : ("page".toList : List Char) ≠ [] := by decide
  have hpage2 : ∀ c ∈ ("page".toList : List Char), Char.isAlphanum c ∨ c = '_' := by decide
  have hpage3 : ∀ c, ("page".toList : List Char).head? = some c → c ≠ '_' := by decide
  have hpage4 : ∀ c, ("page".toList : List Char).getLast? = some c → c ≠ '_' := by decide
  have hpage5 : List.Chain' (fun x y => ¬(x = '_' ∧ y = '_')) ("page".toList : List Char) := by
    have he : ("page".toList : List Char) = ['p', 'a', 'g', 'e'] := rfl
    rw [he]
    simp [List.chain'_cons]
  refine ⟨rfl, ?_⟩
  intro url
  by_cases hu : url = []
  · subst hu
    refine ⟨by rw [show slugify_url [] = "page".toList from rfl]; exact hpage1, ?_, ?_, ?_, ?_⟩ <;>
      rw [show slugify_url [] = "page".toList from rfl]
    · exact hpage2
    · exact hpage3
    · exact hpage4
    · exact hpage5
  · simp only [slugify_url, if_neg hu]
    set u3 := slugReplace (dropSchemeSlug (pyStrip url)) with hu3
    set u4 := collapseUnderscores u3 with hu4
    set u5 := stripBoth (fun c => c = '_') u4 with hu5
    by_cases h5 : u5 = []
    · rw [if_pos h5]
      exact ⟨hpage1, hpage2, hpage3, hpage4, hpage5⟩
    · rw [if_neg h5]
      refine ⟨h5, ?_, ?_, ?_, ?_⟩
      · intro c hc
        have hc4 : c ∈ u4 := stripBoth_mem _ u4 c hc
        rcases collapseUnderscoresAux_chars u3 false c hc4 with h3 | h3
        · exact slugReplaceAux_chars (dropSchemeSlug (pyStrip url)) false c h3
        · exact Or.inr h3
      · intro c hc
        have := stripBoth_head (fun c => c = '_') u4 c hc
        simpa using this
      · intro c hc
        have := stripBoth_getLast (fun c => c = '_') u4 c hc
        simpa using this
      · exact List.Chain'.infix (collapseUnderscoresAux_chain u3 false)
          (stripBoth_infixOf _ u4)

/-- Witness for C10: the docstring's own example URL slugifies to the
documented filesystem-safe name, and the theorem's head hypothesis is
dischargeable there. -/
theorem slugify_url_filesystem_safe_witness :
    slugify_url ("https://www.facebook.com/GroupName/?id=123".toList) =
      "www_facebook_com_GroupName_id_123".toList ∧
    slugify_url ("https://www.facebook.com/GroupName/?id=123".toList) ≠ [] ∧
    ('w' : Char) ≠ '_' :=
  ⟨by decide, (slugify_url_filesystem_safe.2 _).1,
   (slugify_url_filesystem_safe.2 ("https://www.facebook.com/GroupName/?id=123".toList)).2.2.1 'w'
     (by decide)⟩

/-! ### `utils.normalize` (the Normalizer's `normalizeText`) -/

def invisibleChars : List Char :=
  ['​', '‎', '‏', '‪', '‫', '‬']

/-- The six sequential `s.replace(ch, "")` calls of `utils.normalize`
(replacing a single character by the empty string is a filter). -/
def removeInvisible (l : List Char) : List Char :=
  invisibleChars.foldl (fun acc ch => acc.filter (fun c => c != ch)) l

/-- Python `str.split()` with no separator: maximal runs of
non-whitespace characters, with whitespace discarded.  `acc` holds the
reversed current word. -/
def pyWordsAux : List Char → List Char → List (List Char)
  | [], acc => if acc = [] then [] else [acc.reverse]
  | c :: cs, acc =>
    if pySpace c then
      if acc = [] then pyWordsAux cs []
      else acc.reverse :: pyWordsAux cs []
    else pyWordsAux cs (c :: acc)

def pyWords (l : List Char) : List (List Char) :=
  pyWordsAux l []

/-- Python `" ".join(ws)`. -/
def joinWords : List (List Char) → List Char
  | [] => []
  | [w] => w
  | w :: ws => w ++ ' ' :: joinWords ws

/-- `utils.normalize` (identical to `analyzer.normalize`): strip the six
invisible characters, collapse whitespace runs via `split`/`join`, and
strip the ends. -/
def normalize (l : List Char) : List Char :=
  if l = [] then []
  else pyStrip (joinWords (pyWords (removeInvisible l)))

/-! ### Lemmas for the normalizer -/

theorem mem_of_getLast? {α : Type} : ∀ (l : List α) (c : α), l.getLast? = some c → c ∈ l := by
  intro l
  induction l with
  | nil => intro c h; simp at h
  | cons a t ih =>
    intro c h
    cases t with
    | nil =>
      simp only [List.getLast?_singleton, Option.some.injEq] at h
      simp [h]
    | cons b s =>
      rw [List.getLast?_cons_cons] at h
      exact List.mem_cons_of_mem a (ih c h)

theorem getLast?_cons_ne_nil {α : Type} (a : α) (t : List α) (h : t ≠ []) :
    (a :: t).getLast? = t.getLast? := by
  cases t with
  | nil => exact absurd rfl h
  | cons b s => exact List.getLast?_cons_cons

theorem pyWordsAux_good :
    ∀ (cs acc : List Char), (∀ c ∈ acc, pySpace c = false) →
      ∀ w ∈ pyWordsAux cs acc, w ≠ [] ∧ ∀ c ∈ w, pySpace c = false := by
  intro cs
  induction cs with
  | nil =>
    intro acc hacc w hw
    simp only [pyWordsAux] at hw
    by_cases ha : acc = []
    · rw [if_pos ha] at hw; simp at hw
    · rw [if_neg ha] at hw
      simp only [List.mem_singleton] at hw
      subst hw
      refine ⟨by simpa using ha, ?_⟩
      intro c hc
      exact hacc c (List.mem_reverse.mp hc)
  | cons a t ih =>
    intro acc hacc w hw
    simp only [pyWordsAux] at hw
    by_cases hs : pySpace a
    · rw [if_pos hs] at hw
      by_cases ha : acc = []
      · rw [if_pos ha] at hw
        exact ih [] (by simp) w hw
      · rw [if_neg ha] at hw
        rcases List.mem_cons.mp hw with rfl | hw
        · refine ⟨by simpa using ha, ?_⟩
          intro c hc
          exact hacc c (List.mem_reverse.mp hc)
        · exact ih [] (by simp) w hw
    · rw [if_neg hs] at hw
      refine ih (a :: acc) ?_ w hw
      intro c hc
      rcases List.mem_cons.mp hc with rfl | hc
      · simpa using hs
      · exact hacc c hc

theorem pyWordsAux_mem :
    ∀ (cs acc : List Char) (w : List Char) (c : Char),
      w ∈ pyWordsAux cs acc → c ∈ w → c ∈ cs ∨ c ∈ acc := by
  intro cs
  induction cs with
  | nil =>
    intro acc w c hw hc
    simp only [pyWordsAux] at hw
    by_cases ha : acc = []
    · rw [if_pos ha] at hw; simp at hw
    · rw [if_neg ha] at hw
      simp only [List.mem_singleton] at hw
      subst hw
      exact Or.inr (List.mem_reverse.mp hc)
  | cons a t ih =>
    intro acc w c hw hc
    simp only [pyWordsAux] at hw
    by_cases hs : pySpace a
    · rw [if_pos hs] at hw
      by_cases ha : acc = []
      · rw [if_pos ha] at hw
        rcases ih [] w c hw hc with h | h
        · exact Or.inl (List.mem_cons_of_mem a h)
        · simp at h
      · rw [if_neg ha] at hw
        rcases List.mem_cons.mp hw with rfl | hw
        · exact Or.inr (List.mem_reverse.mp hc)
        · rcases ih [] w c hw hc with h | h
          · exact Or.inl (List.mem_cons_of_mem a h)
          · simp at h
    · rw [if_neg hs] at hw
      rcases ih (a :: acc) w c hw hc with h | h
      · exact Or.inl (List.mem_cons_of_mem a h)
      · rcases List.mem_cons.mp h with rfl | h
        · exact Or.inl (List.mem_cons_self _ _)
        · exact Or.inr h

theorem pyWordsAux_step :
    ∀ (w rest acc : List Char), (∀ c ∈ w, pySpace c = false) →
      pyWordsAux (w ++ rest) acc = pyWordsAux rest (w.reverse ++ acc) := by
  intro w
  induction w with
  | nil => intro rest acc _; simp
  | cons c w' ih =>
    intro rest acc hw
    have hc : pySpace c = false := hw c (List.mem_cons_self _ _)
    have hw' : ∀ d ∈ w', pySpace d = false := fun d hd => hw d (List.mem_cons_of_mem c hd)
    simp only [List.cons_append, pyWordsAux, hc]
    rw [if_neg (by simp [hc])]
    simp only [List.append_eq]
    rw [ih rest (c :: acc) hw']
    congr 1
    simp

theorem pyWords_joinWords :
    ∀ ws : List (List Char),
      (∀ w ∈ ws, w ≠ [] ∧ ∀ c ∈ w, pySpace c = false) →
      pyWords (joinWords ws) = ws := by
  intro ws
  induction ws with
  | nil => intro _; rfl
  | cons w ws' ih =>
    intro hgood
    have hw := hgood w (List.mem_cons_self _ _)
    cases ws' with
    | nil =>
      show pyWordsAux (joinWords [w]) [] = [w]
      have hj : joinWords [w] = w := rfl
      rw [hj, show (w : List Char) = w ++ [] by simp, pyWordsAux_step w [] [] hw.2]
      simp only [pyWordsAux]
      rw [if_neg (by simpa using hw.1)]
      simp
    | cons w1 ws1 =>
      have hj : joinWords (w :: w1 :: ws1) = w ++ ' ' :: joinWords (w1 :: ws1) := rfl
      show pyWordsAux (joinWords (w :: w1 :: ws1)) [] = w :: w1 :: ws1
      rw [hj, pyWordsAux_step w (' ' :: joinWords (w1 :: ws1)) [] hw.2]
      simp only [pyWordsAux]
      rw [if_pos (by decide), if_neg (by simpa using hw.1)]
      have ihx := ih (fun u hu => hgood u (List.mem_cons_of_mem w hu))
      simp only [List.append_nil, List.reverse_reverse]
      rw [show pyWordsAux (joinWords (w1 :: ws1)) [] =
        pyWords (joinWords (w1 :: ws1)) from rfl, ihx]

theorem joinWords_mem :
    ∀ (ws : List (List Char)) (c : Char), c ∈ joinWords ws →
      (∃ w ∈ ws, c ∈ w) ∨ c = ' ' := by
  intro ws
  induction ws with
  | nil => intro c h; simp [joinWords] at h
  | cons w ws' ih =>
    intro c h
    cases ws' with
    | nil =>
      exact Or.inl ⟨w, List.mem_cons_self _ _, h⟩
    | cons w1 ws1 =>
      have hj : joinWords (w :: w1 :: ws1) = w ++ ' ' :: joinWords (w1 :: ws1) := rfl
      rw [hj] at h
      rcases List.mem_append.mp h with h | h
      · exact Or.inl ⟨w, List.mem_cons_self _ _, h⟩
      · rcases List.mem_cons.mp h with rfl | h
        · exact Or.inr rfl
        · rcases ih c h with ⟨u, hu, hc⟩ | h
          · exact Or.inl ⟨u, List.mem_cons_of_mem w hu, hc⟩
          · exact Or.inr h

theorem joinWords_head? (w : List Char) (ws : List (List Char)) (h : w ≠ []) :
    (joinWords (w :: ws)).head? = w.head? := by
  cases ws with
  | nil => rfl
  | cons w1 ws1 =>
    have hj : joinWords (w :: w1 :: ws1) = w ++ ' ' :: joinWords (w1 :: ws1) := rfl
    rw [hj]
    exact List.head?_append_of_ne_nil w h

theorem joinWords_getLast? :
    ∀ ws : List (List Char), ws ≠ [] → (∀ w ∈ ws, w ≠ []) →
      ∃ wl ∈ ws, (joinWords ws).getLast? = wl.getLast? := by
  intro ws
  induction ws with
  | nil => intro h _; exact absurd rfl h
  | cons w ws' ih =>
    intro _ hgood
    cases ws' with
    | nil => exact ⟨w, List.mem_cons_self _ _, rfl⟩
    | cons w1 ws1 =>
      obtain ⟨wl, hwl, hlast⟩ :=
        ih (by simp) (fun u hu => hgood u (List.mem_cons_of_mem w hu))
      have hwlne : wl ≠ [] := hgood wl (List.mem_cons_of_mem w hwl)
      have hJne : joinWords (w1 :: ws1) ≠ [] := by
        intro he
        rw [he] at hlast
        cases hl : wl.getLast? with
        | none =>
          rw [List.getLast?_eq_none_iff] at hl
          exact hwlne hl
        | some c => rw [hl] at hlast; simp at hlast
      have hj : joinWords (w :: w1 :: ws1) = w ++ ' ' :: joinWords (w1 :: ws1) := rfl
      refine ⟨wl, List.mem_cons_of_mem w hwl, ?_⟩
      rw [hj, List.getLast?_append_of_ne_nil w (by simp),
        getLast?_cons_ne_nil ' ' _ hJne, hlast]

theorem foldl_filter_eq_self :
    ∀ (chs : List Char) (l : List Char), (∀ c ∈ l, c ∉ chs) →
      chs.foldl (fun acc ch => acc.filter (fun c => c != ch)) l = l := by
  intro chs
  induction chs with
  | nil => intro l _; rfl
  | cons ch chs' ih =>
    intro l hl
    have hf : l.filter (fun c => c != ch) = l := by
      rw [List.filter_eq_self]
      intro a ha
      have := hl a ha
      simp only [List.mem_cons, not_or] at this
      simpa using this.1
    simp only [List.foldl_cons, hf]
    exact ih l (fun c hc => by
      have := hl c hc
      simp only [List.mem_cons, not_or] at this
      exact this.2)

theorem mem_foldl_filter :
    ∀ (chs : List Char) (l : List Char) (c : Char),
      c ∈ chs.foldl (fun acc ch => acc.filter (fun x => x != ch)) l →
      c ∈ l ∧ c ∉ chs := by
  intro chs
  induction chs with
  | nil => intro l c h; exact ⟨h, by simp⟩
  | cons ch chs' ih =>
    intro l c h
    simp only [List.foldl_cons] at h
    obtain ⟨h1, h2⟩ := ih (l.filter (fun x => x != ch)) c h
    rw [List.mem_filter] at h1
    refine ⟨h1.1, ?_⟩
    simp only [List.mem_cons, not_or]
    exact ⟨by simpa using h1.2, h2⟩

theorem removeInvisible_eq_self (l : List Char) (h : ∀ c ∈ l, c ∉ invisibleChars) :
    removeInvisible l = l :=
  foldl_filter_eq_self invisibleChars l h

theorem mem_removeInvisible (l : List Char) (c : Char) (h : c ∈ removeInvisible l) :
    c ∈ l ∧ c ∉ invisibleChars :=
  mem_foldl_filter invisibleChars l c h

theorem pyStrip_joinWords_good (ws : List (List Char))
    (hgood : ∀ w ∈ ws, w ≠ [] ∧ ∀ c ∈ w, pySpace c = false) :
    pyStrip (joinWords ws) = joinWords ws := by
  cases ws with
  | nil => rfl
  | cons w ws' =>
    refine stripBoth_eq_self pySpace _ ?_ ?_
    · intro c hc
      rw [joinWords_head? w ws' (hgood w (List.mem_cons_self _ _)).1] at hc
      exact (hgood w (List.mem_cons_self _ _)).2 c (List.mem_of_mem_head? hc)
    · intro c hc
      obtain ⟨wl, hwl, hlast⟩ :=
        joinWords_getLast? (w :: ws') (by simp) (fun u hu => (hgood u hu).1)
      rw [hlast] at hc
      exact (hgood wl hwl).2 c (mem_of_getLast? wl c hc)

theorem normalize_eq_joinWords (l : List Char) (h : l ≠ []) :
    normalize l = joinWords (pyWords (removeInvisible l)) := by
  have hgood := pyWordsAux_good (removeInvisible l) [] (by simp)
  simp only [normalize, if_neg h]
  exact pyStrip_joinWords_good _ (fun w hw => hgood w hw)

theorem normalize_idem (l : List Char) : normalize (normalize l) = normalize l := by
  by_cases h : l = []
  · subst h; rfl
  · rw [normalize_eq_joinWords l h]
    set ws := pyWords (removeInvisible l) with hws
    have hgood : ∀ w ∈ ws, w ≠ [] ∧ ∀ c ∈ w, pySpace c = false :=
      fun w hw => pyWordsAux_good (removeInvisible l) [] (by simp) w hw
    by_cases hj : joinWords ws = []
    · rw [hj]; rfl
    · rw [show normalize (joinWords ws) =
          pyStrip (joinWords (pyWords (removeInvisible (joinWords ws)))) from
        by simp only [normalize, if_neg hj]]
      have hno : ∀ c ∈ joinWords ws, c ∉ invisibleChars := by
        intro c hc
        rcases joinWords_mem ws c hc with ⟨w, hw, hcw⟩ | rfl
        · have hcm : c ∈ removeInvisible l := by
            have := pyWordsAux_mem (removeInvisible l) [] w c hw hcw
            rcases this with h2 | h2
            · exact h2
            · simp at h2
          exact (mem_removeInvisible l c hcm).2
        · decide
      rw [removeInvisible_eq_self _ hno, pyWords_joinWords ws hgood,
        pyStrip_joinWords_good ws hgood]

/-- Claim C9 --- `normalizeText` (`normalize`) is idempotent; `absolutize`
(`urljoin`) returns an already-absolute `http(s)` URL unchanged; and the
spec's concrete example `normalize "a​  b" = "a b"` holds. -/
theorem normalize_absolutize_idempotent :
    (∀ l : List Char, normalize (normalize l) = normalize l) ∧
    (∀ base u : List Char, hasHttpScheme u = true → urljoin base u = u) ∧
    normalize ("a​  b".toList) = "a b".toList := by
  refine ⟨normalize_idem, ?_, by decide⟩
  intro base u h
  by_cases hb : base = []
  · simp [urljoin, hb]
  · have hu : u ≠ [] := by
      intro he
      rw [he] at h
      exact absurd h (by decide)
    simp [urljoin, hb, hu, h]

/-- Witness for C9: the idempotence and absolute-URL conjuncts applied at
concrete inputs, with the scheme hypothesis discharged by computation. -/
theorem normalize_absolutize_idempotent_witness :
    normalize (normalize ("  a​  b ".toList)) = normalize ("  a​  b ".toList) ∧
    urljoin ("https://www.facebook.com/page".toList) ("https://cdn.example/img.jpg".toList) =
      "https://cdn.example/img.jpg".toList :=
  ⟨normalize_absolutize_idempotent.1 _,
   normalize_absolutize_idempotent.2.1 _ _ (by decide)⟩

/-! ### `core_extractor.EXTRACT_JS`: per-candidate harvesting

The harvesting loops run as JavaScript inside the page.  Each loop is
modelled over the sequence of sub-elements the `querySelectorAll` call
returns, represented by the attribute/text values the loop reads. -/

/-- JS `a || b || ... || ""` on strings: first non-empty value. -/
def firstNonEmpty : List (List Char) → List Char
  | [] => []
  | x :: xs => if x = [] then firstNonEmpty xs else x

/-- The author-candidate loop: trimmed `innerText` of each matched
element, deduplicated, capped at 5. -/
def harvestAuthors (texts : List (List Char)) : List (List Char) :=
  texts.foldl
    (fun acc raw =>
      let t := pyStrip raw
      if t ≠ [] ∧ t ∉ acc ∧ acc.length < 5 then acc ++ [t] else acc) []

/-- One matched timestamp element: the attributes the loop reads
(absent attributes are the empty string, as `getAttribute` yields a
falsy value). -/
structure TimeEl where
  datetime : List Char
  title : List Char
  ariaLabel : List Char
  innerText : List Char
deriving DecidableEq

/-- The timestamp-candidate loop: `datetime || title || aria-label ||
innerText || ""`, trimmed, deduplicated, capped at 5. -/
def harvestTimestamps (els : List TimeEl) : List (List Char) :=
  els.foldl
    (fun acc t =>
      let v := pyStrip (firstNonEmpty [t.datetime, t.title, t.ariaLabel, t.innerText])
      if v ≠ [] ∧ v ∉ acc ∧ acc.length < 5 then acc ++ [v] else acc) []

/-- One matched anchor element (`a[href]`): raw href and inner text. -/
structure Anchor where
  href : List Char
  text : List Char
deriving DecidableEq

/-- The link loop: trimmed href (skipped when empty) with trimmed text,
pushed without deduplication, with a `break` once 30 entries exist. -/
def harvestLinks (els : List Anchor) (acc : List Link) : List Link :=
  match els with
  | [] => acc
  | a :: rest =>
    if pyStrip a.href = [] then harvestLinks rest acc
    else if 30 ≤ (acc ++ [(⟨pyStrip a.href, pyStrip a.text⟩ : Link)]).length then
      acc ++ [(⟨pyStrip a.href, pyStrip a.text⟩ : Link)]
    else harvestLinks rest (acc ++ [(⟨pyStrip a.href, pyStrip a.text⟩ : Link)])

/-- One matched `img` element: the attributes the loop reads. -/
structure ImgEl where
  src : List Char
  dataSrc : List Char
  srcset : List Char
  alt : List Char
deriving DecidableEq

/-- An image record as stored on a raw block. -/
structure Image where
  src : List Char
  srcset : List Char
  alt : List Char
deriving DecidableEq

/-- The image loop: `src || data-src`, trimmed; elements with neither a
src nor a srcset are skipped; pushed without deduplication; `break`
once 30 entries exist. -/
def harvestImages (els : List ImgEl) (acc : List Image) : List Image :=
  match els with
  | [] => acc
  | im :: rest =>
    if pyStrip (firstNonEmpty [im.src, im.dataSrc]) = [] ∧ pyStrip im.srcset = [] then
      harvestImages rest acc
    else if 30 ≤ (acc ++ [(⟨pyStrip (firstNonEmpty [im.src, im.dataSrc]),
        pyStrip im.srcset, pyStrip im.alt⟩ : Image)]).length then
      acc ++ [(⟨pyStrip (firstNonEmpty [im.src, im.dataSrc]),
        pyStrip im.srcset, pyStrip im.alt⟩ : Image)]
    else harvestImages rest (acc ++ [(⟨pyStrip (firstNonEmpty [im.src, im.dataSrc]),
        pyStrip im.srcset, pyStrip im.alt⟩ : Image)])

/-- Whether a JS object modelled as an association list has key `n`. -/
def hasKey (res : List (List Char × List Char)) (n : List Char) : Bool :=
  res.any (fun p => p.1 = n)

/-- `getDataAttrs`'s `res[attr.name] = attr.value` on a JS object:
overwrite an existing key, else append. -/
def assignAttr (res : List (List Char × List Char)) (n v : List Char) :
    List (List Char × List Char) :=
  if hasKey res n then
    res.map (fun p => if p.1 = n then (n, v) else p)
  else res ++ [(n, v)]

/-- `core_extractor.EXTRACT_JS`'s `getDataAttrs`: collect `data-*`
attributes while fewer than 10 keys are present. -/
def getDataAttrs (attrs : List (List Char × List Char)) :
    List (List Char × List Char) :=
  attrs.foldl
    (fun res a =>
      if startsWithL a.1 ("data-".toList) then
        if res.length < 10 then assignAttr res a.1 a.2 else res
      else res) []

/-! ### C1: caps and deduplication of the harvested lists -/

theorem capfold_invariant {α : Type} (f : α → List Char) :
    ∀ (els : List α) (acc : List (List Char)), acc.length ≤ 5 → acc.Nodup →
      (els.foldl
        (fun acc e =>
          let v := f e
          if v ≠ [] ∧ v ∉ acc ∧ acc.length < 5 then acc ++ [v] else acc) acc).length ≤ 5 ∧
      (els.foldl
        (fun acc e =>
          let v := f e
          if v ≠ [] ∧ v ∉ acc ∧ acc.length < 5 then acc ++ [v] else acc) acc).Nodup := by
  intro els
  induction els with
  | nil => intro acc h1 h2; exact ⟨h1, h2⟩
  | cons e rest ih =>
    intro acc h1 h2
    simp only [List.foldl_cons]
    by_cases hc : f e ≠ [] ∧ f e ∉ acc ∧ acc.length < 5
    · rw [if_pos hc]
      refine ih (acc ++ [f e]) ?_ ?_
      · simp only [List.length_append, List.length_singleton]
        omega
      · rw [List.nodup_append]
        refine ⟨h2, List.nodup_singleton _, ?_⟩
        intro a ha
        simp only [List.mem_singleton]
        intro he
        subst he
        exact hc.2.1 ha
    · rw [if_neg hc]
      exact ih acc h1 h2

theorem harvestLinks_bound :
    ∀ (els : List Anchor) (acc : List Link), acc.length < 30 →
      (harvestLinks els acc).length ≤ 30 := by
  intro els
  induction els with
  | nil => intro acc h; simp only [harvestLinks]; omega
  | cons a rest ih =>
    intro acc h
    simp only [harvestLinks]
    by_cases hh : pyStrip a.href = []
    · rw [if_pos hh]
      exact ih acc h
    · rw [if_neg hh]
      by_cases h30 : 30 ≤ (acc ++ [(⟨pyStrip a.href, pyStrip a.text⟩ : Link)]).length
      · rw [if_pos h30]
        simp only [List.length_append, List.length_singleton]
        omega
      · rw [if_neg h30]
        refine ih _ ?_
        omega

theorem harvestImages_bound :
    ∀ (els : List ImgEl) (acc : List Image), acc.length < 30 →
      (harvestImages els acc).length ≤ 30 := by
  intro els
  induction els with
  | nil => intro acc h; simp only [harvestImages]; omega
  | cons im rest ih =>
    intro acc h
    simp only [harvestImages]
    by_cases hskip : pyStrip (firstNonEmpty [im.src, im.dataSrc]) = [] ∧ pyStrip im.srcset = []
    · rw [if_pos hskip]
      exact ih acc h
    · rw [if_neg hskip]
      by_cases h30 : 30 ≤ (acc ++
          [(⟨pyStrip (firstNonEmpty [im.src, im.dataSrc]), pyStrip im.srcset,
            pyStrip im.alt⟩ : Image)]).length
      · rw [if_pos h30]
        simp only [List.length_append, List.length_singleton]
        omega
      · rw [if_neg h30]
        refine ih _ ?_
        omega

theorem hasKey_false_not_memKeys (n : List Char)
    (res : List (List Char × List Char)) (h : hasKey res n = false) :
    n ∉ res.map Prod.fst := by
  intro hmem
  obtain ⟨p, hp, hfst⟩ := List.mem_map.mp hmem
  have : res.any (fun p => p.1 = n) = true :=
    List.any_eq_true.mpr ⟨p, hp, by simp [hfst]⟩
  rw [show res.any (fun p => p.1 = n) = hasKey res n from rfl, h] at this
  exact Bool.false_ne_true this

theorem assignAttr_keys_of_mem (res : List (List Char × List Char))
    (n v : List Char) (h : hasKey res n = true) :
    (assignAttr res n v).map Prod.fst = res.map Prod.fst := by
  simp only [assignAttr, if_pos h, List.map_map]
  refine List.map_congr_left ?_
  intro p _
  by_cases he : p.1 = n
  · simp [Function.comp, if_pos he, he]
  · simp [Function.comp, if_neg he]

theorem getDataAttrs_invariant :
    ∀ (attrs acc : List (List Char × List Char)),
      acc.length ≤ 10 → (acc.map Prod.fst).Nodup →
      (attrs.foldl
        (fun res a =>
          if startsWithL a.1 ("data-".toList) then
            if res.length < 10 then assignAttr res a.1 a.2 else res
          else res) acc).length ≤ 10 ∧
      ((attrs.foldl
        (fun res a =>
          if startsWithL a.1 ("data-".toList) then
            if res.length < 10 then assignAttr res a.1 a.2 else res
          else res) acc).map Prod.fst).Nodup := by
  intro attrs
  induction attrs with
  | nil => intro acc h1 h2; exact ⟨h1, h2⟩
  | cons a rest ih =>
    intro acc h1 h2
    simp only [List.foldl_cons]
    by_cases hd : startsWithL a.1 ("data-".toList)
    · rw [if_pos hd]
      by_cases hl : acc.length < 10
      · rw [if_pos hl]
        by_cases hs : hasKey acc a.1 = true
        · refine ih (assignAttr acc a.1 a.2) ?_ ?_
          · have hlen : (assignAttr acc a.1 a.2).length = acc.length := by
              simp [assignAttr, if_pos hs]
            omega
          · rw [assignAttr_keys_of_mem acc a.1 a.2 hs]
            exact h2
        · have hs2 : hasKey acc a.1 = false := by
            simpa using hs
          have hass : assignAttr acc a.1 a.2 = acc ++ [(a.1, a.2)] := by
            simp [assignAttr, hs2]
          refine ih (assignAttr acc a.1 a.2) ?_ ?_
          · rw [hass]
            simp only [List.length_append, List.length_singleton]
            omega
          · rw [hass, List.map_append]
            rw [List.nodup_append]
            refine ⟨h2, by simp, ?_⟩
            intro x hx
            simp only [List.map_cons, List.map_nil, List.mem_singleton]
            intro he
            subst he
            exact hasKey_false_not_memKeys a.1 acc hs2 hx
      · rw [if_neg hl]
        exact ih acc h1 h2
    · rw [if_neg hd]
      exact ih acc h1 h2

/-- Claim C1 (amended) --- every bounded list respects its hard cap
(author candidates at most 5, timestamp candidates at most 5, links at
most 30, images at most 30, data attributes at most 10); the author and
timestamp candidate lists and the data-attribute keys are additionally
duplicate-free, but the link and image lists are not deduplicated. -/
theorem extractor_caps_and_dedup :
    (∀ texts : List (List Char),
      (harvestAuthors texts).length ≤ 5 ∧ (harvestAuthors texts).Nodup) ∧
    (∀ els : List TimeEl,
      (harvestTimestamps els).length ≤ 5 ∧ (harvestTimestamps els).Nodup) ∧
    (∀ els : List Anchor, (harvestLinks els []).length ≤ 30) ∧
    (∀ els : List ImgEl, (harvestImages els []).length ≤ 30) ∧
    (∀ attrs : List (List Char × List Char),
      (getDataAttrs attrs).length ≤ 10 ∧ ((getDataAttrs attrs).map Prod.fst).Nodup) := by
  refine ⟨?_, ?_, ?_, ?_, ?_⟩
  · intro texts
    exact capfold_invariant (fun raw => pyStrip raw) texts [] (by simp) (by simp)
  · intro els
    exact capfold_invariant
      (fun t => pyStrip (firstNonEmpty [t.datetime, t.title, t.ariaLabel, t.innerText]))
      els [] (by simp) (by simp)
  · intro els
    exact harvestLinks_bound els [] (by simp)
  · intro els
    exact harvestImages_bound els [] (by simp)
  · intro attrs
    exact getDataAttrs_invariant attrs [] (by simp) (by simp)

/-- Counterexample for C1 as stated: two identical anchors inside one
block yield a links list containing the same entry twice --- the links
list is capped but not deduplicated. -/
theorem harvestLinks_duplicate_counterexample :
    harvestLinks [⟨"/a".toList, "x".toList⟩, ⟨"/a".toList, "x".toList⟩] [] =
      [⟨"/a".toList, "x".toList⟩, ⟨"/a".toList, "x".toList⟩] ∧
    ¬ (harvestLinks [⟨"/a".toList, "x".toList⟩, ⟨"/a".toList, "x".toList⟩] []).Nodup := by
  constructor
  · decide
  · decide

/-! ### C7: image normalization --- `analyzer.main` vs `adapt_facebook_blocks` -/

/-- Python `s.split(",")`: split on every comma, keeping empty pieces. -/
def splitOnComma : List Char → List (List Char)
  | [] => [[]]
  | c :: cs =>
    if c = ',' then [] :: splitOnComma cs
    else
      match splitOnComma cs with
      | [] => [[c]]
      | p :: ps => (c :: p) :: ps

/-- `[p.split()[0] for p in srcset.split(",") if p.strip()]` from
`analyzer.main`'s image normalization. -/
def srcsetParts (s : List Char) : List (List Char) :=
  (splitOnComma s).filterMap
    (fun p => if pyStrip p = [] then none else (pyWords p).head?)

/-- A normalized image record (`{"src": ..., "alt": ...}`) as built by
`analyzer.main`. -/
structure ImageOut where
  src : List Char
  alt : List Char
deriving DecidableEq

/-- One iteration of `analyzer.main`'s image-normalization loop: when
`src` is empty but a srcset is present, the last srcset candidate URL is
substituted; an image still lacking a src is dropped (`continue`),
otherwise its src is absolutized. -/
def analyzerImageStep (page_url : List Char) (im : Image) : Option ImageOut :=
  let src :=
    if im.src = [] ∧ im.srcset ≠ [] then
      match (srcsetParts im.srcset).getLast? with
      | some p => p
      | none => im.src
    else im.src
  if src = [] then none else some ⟨urljoin page_url src, im.alt⟩

/-- `analyzer.main`'s image normalization over a block's image list. -/
def analyzerNormalizeImages (page_url : List Char) (imgs : List Image) : List ImageOut :=
  imgs.filterMap (analyzerImageStep page_url)

/-- The image loop of `adapt_facebook_blocks`: keep `im["src"]` when it
is non-empty, drop the record otherwise (the srcset is never consulted). -/
def adapterImages (imgs : List Image) : List (List Char) :=
  imgs.filterMap (fun im => if im.src = [] then none else some im.src)

theorem srcsetParts_ne_nil_mem (s : List Char) (p : List Char)
    (h : p ∈ srcsetParts s) : p ≠ [] := by
  simp only [srcsetParts, List.mem_filterMap] at h
  obtain ⟨piece, _, hpiece⟩ := h
  by_cases hs : pyStrip piece = []
  · rw [if_pos hs] at hpiece
    simp at hpiece
  · rw [if_neg hs] at hpiece
    have hmem : p ∈ pyWords piece := List.mem_of_mem_head? (by rw [hpiece]; rfl)
    exact (pyWordsAux_good piece [] (by simp) p hmem).1

/-- Claim C7 (amended) --- in the analyzer's normalization an image whose
src is empty but whose srcset lists at least one candidate survives, with
src the absolutized last srcset candidate; in the Facebook adapter's
normalization an image with empty src is dropped even when its srcset is
non-empty. -/
theorem analyzer_srcset_fallback :
    (∀ (page_url : List Char) (im : Image) (p : List Char),
      im.src = [] → (srcsetParts im.srcset).getLast? = some p →
      analyzerImageStep page_url im = some ⟨urljoin page_url p, im.alt⟩) ∧
    (∀ imgs : List Image, (∀ im ∈ imgs, im.src = []) → adapterImages imgs = []) := by
  constructor
  · intro page_url im p hsrc hlast
    have hsne : im.srcset ≠ [] := by
      intro he
      rw [he] at hlast
      rw [show srcsetParts ([] : List Char) = [] from rfl] at hlast
      simp at hlast
    have hp : p ∈ srcsetParts im.srcset :=
      mem_of_getLast? _ p hlast
    have hpne : p ≠ [] := srcsetParts_ne_nil_mem im.srcset p hp
    simp only [analyzerImageStep, if_pos (And.intro hsrc hsne), hlast]
    rw [if_neg hpne]
  · intro imgs h
    induction imgs with
    | nil => rfl
    | cons im rest ih =>
      have h0 : im.src = [] := h im (List.mem_cons_self _ _)
      simp only [adapterImages, List.filterMap_cons, if_pos h0]
      exact ih (fun x hx => h x (List.mem_cons_of_mem im hx))

/-- Counterexample for C7 as stated: in the Facebook adapter's
normalization stage, a harvested image with empty src and non-empty
srcset is dropped --- it does not survive into the structured record. -/
theorem adapter_drops_srcset_counterexample :
    adapterImages [⟨[], "https://cdn.example/a.jpg 1x, https://cdn.example/b.jpg 2x".toList,
      "alt".toList⟩] = [] := by
  decide

/-- Witness for C7: the analyzer keeps a src-less image via its last
srcset candidate, absolutized against the page URL. -/
theorem analyzer_srcset_fallback_witness :
    analyzerImageStep ("https://www.facebook.com/page/".toList)
      ⟨[], "img/a.jpg 1x, img/b.jpg 2x".toList, "alt".toList⟩ =
      some ⟨urljoin ("https://www.facebook.com/page/".toList) ("img/b.jpg".toList),
        "alt".toList⟩ ∧
    urljoin ("https://www.facebook.com/page/".toList) ("img/b.jpg".toList) =
      "https://www.facebook.com/page/img/b.jpg".toList :=
  ⟨analyzer_srcset_fallback.1 _ ⟨[], "img/a.jpg 1x, img/b.jpg 2x".toList, "alt".toList⟩
      ("img/b.jpg".toList) rfl (by decide),
   by decide⟩

/-! ### C8: `adapt_facebook_blocks` and the reporter's author grouping -/

/-- The `re.sub(r"\n{3,}", "\n\n", txt)` step of `extract_text`: a run of
three or more newlines becomes exactly two.  The counter records how many
newlines of the current run have been emitted (the first two are kept,
the rest dropped). -/
def collapseNewlinesAux : List Char → Nat → List Char
  | [], _ => []
  | c :: cs, k =>
    if c = '\n' then
      if k < 2 then '\n' :: collapseNewlinesAux cs (k + 1)
      else collapseNewlinesAux cs k
    else c :: collapseNewlinesAux cs 0

def collapseNewlines (l : List Char) : List Char :=
  collapseNewlinesAux l 0

/-- `facebook_adapter.extract_text`. -/
def extract_text (raw_text : List Char) : List Char :=
  if raw_text = [] then []
  else
    pyStrip (((collapseNewlines (pyStrip raw_text)).filter (fun c => c ≠ '​')).filter
      (fun c => c ≠ '‎'))

/-- One raw DOM block as produced by `EXTRACT_JS`. -/
structure RawBlock where
  index : Nat
  tag : List Char
  role : List Char
  className : List Char
  dataAttrs : List (List Char × List Char)
  text : List Char
  snippet : List Char
  textLength : Nat
  authorCandidates : List (List Char)
  timestampCandidates : List (List Char)
  links : List Link
  images : List Image
deriving DecidableEq

/-- One structured post as built by `adapt_facebook_blocks`. -/
structure Post where
  post_index : Nat
  author : List Char
  text : List Char
  timestamp : List Char
  permalink : List Char
  images : List (List Char)
  links : List Link
  raw_block : RawBlock
deriving DecidableEq

/-- Strict lexicographic order on code points (Python string `<`). -/
def lexLt : List Char → List Char → Bool
  | [], [] => false
  | [], _ :: _ => true
  | _ :: _, [] => false
  | a :: as, b :: bs => if a < b then true else if b < a then false else lexLt as bs

/-- The per-block body of `adapt_facebook_blocks`. -/
def adaptBlock (page_url : List Char) (b : RawBlock) : Post :=
  { post_index := b.index
    author := clean_author b.authorCandidates
    text := extract_text b.text
    timestamp := clean_timestamp b.timestampCandidates
    permalink := extract_permalink b.links page_url
    images := adapterImages b.images
    links := b.links.map (fun lk =>
      ⟨urljoin page_url lk.href,
       if lk.text = [] then urljoin page_url lk.href else lk.text⟩)
    raw_block := b }

/-- Stable ascending insertion for `structured.sort(key=lambda x:
x["author"].lower())`: the new element goes after every element whose
lowercased author is strictly smaller. -/
def insertPost (p : Post) : List Post → List Post
  | [] => [p]
  | q :: qs =>
    if lexLt (lowerStr q.author) (lowerStr p.author) then q :: insertPost p qs
    else p :: q :: qs

def sortPostsByAuthor : List Post → List Post
  | [] => []
  | p :: ps => insertPost p (sortPostsByAuthor ps)

/-- `facebook_adapter.adapt_facebook_blocks`. -/
def adapt_facebook_blocks (blocks : List RawBlock) (page_url : List Char) : List Post :=
  sortPostsByAuthor (blocks.map (adaptBlock page_url))

/-- The reporter's grouping key: `p.get("author") or "Unknown Author"`. -/
def keyOf (p : Post) : List Char :=
  if p.author = [] then unknownAuthor else p.author

def groupHasKey (gs : List (List Char × List Post)) (a : List Char) : Bool :=
  gs.any (fun g => g.1 = a)

/-- `groups.setdefault(a, []).append(p)` on the insertion-ordered dict. -/
def addToGroups (gs : List (List Char × List Post)) (a : List Char) (p : Post) :
    List (List Char × List Post) :=
  if groupHasKey gs a then
    gs.map (fun g => if g.1 = a then (g.1, g.2 ++ [p]) else g)
  else gs ++ [(a, [p])]

/-- The grouping loop of `generate_html_report`. -/
def groupsOf (posts : List Post) : List (List Char × List Post) :=
  posts.foldl (fun gs p => addToGroups gs (keyOf p) p) []

/-- `groups[author]` lookup. -/
def groupGet (gs : List (List Char × List Post)) (a : List Char) : List Post :=
  match gs.find? (fun g => g.1 = a) with
  | some g => g.2
  | none => []

/-- Stable ascending insertion for
`sorted(groups.keys(), key=lambda x: x.lower())`. -/
def insertAuthorName (a : List Char) : List (List Char) → List (List Char)
  | [] => [a]
  | b :: bs =>
    if lexLt (lowerStr b) (lowerStr a) then b :: insertAuthorName a bs
    else a :: b :: bs

def sortAuthorNames : List (List Char) → List (List Char)
  | [] => []
  | a :: as => insertAuthorName a (sortAuthorNames as)

/-- The reporter's rendering order: author groups listed by
case-insensitively sorted author name, each with its posts in insertion
order. -/
def authorGroups (posts : List Post) : List (List Char × List Post) :=
  (sortAuthorNames ((groupsOf posts).map Prod.fst)).map
    (fun a => (a, groupGet (groupsOf posts) a))

/-! ### Lemmas for the author grouping -/

theorem anyKey_false_not_mem {β : Type} (l : List (List Char × β)) (n : List Char)
    (h : l.any (fun p => p.1 = n) = false) : n ∉ l.map Prod.fst := by
  intro hmem
  obtain ⟨p, hp, hfst⟩ := List.mem_map.mp hmem
  exact (List.any_eq_false.mp h p hp) (by simp [hfst])

theorem find?_append_of_none {α : Type} (p : α → Bool) (l₁ l₂ : List α)
    (h : l₁.find? p = none) : (l₁ ++ l₂).find? p = l₂.find? p := by
  induction l₁ with
  | nil => rfl
  | cons a t ih =>
    have ha : ¬ p a = true := by
      intro hpa
      rw [List.find?_cons_of_pos t hpa] at h
      exact Option.some_ne_none a h
    rw [List.cons_append, List.find?_cons_of_neg _ ha]
    refine ih ?_
    rwa [List.find?_cons_of_neg t ha] at h

theorem find?_append_of_some {α : Type} (p : α → Bool) (l₁ l₂ : List α) (x : α)
    (h : l₁.find? p = some x) : (l₁ ++ l₂).find? p = some x := by
  induction l₁ with
  | nil => simp at h
  | cons a t ih =>
    by_cases ha : p a = true
    · rw [List.find?_cons_of_pos t ha] at h
      rw [List.cons_append, List.find?_cons_of_pos _ ha]
      exact h
    · rw [List.find?_cons_of_neg t ha] at h
      rw [List.cons_append, List.find?_cons_of_neg _ ha]
      exact ih h

theorem groupGet_cons (g : List Char × List Post) (t : List (List Char × List Post))
    (a : List Char) :
    groupGet (g :: t) a = if g.1 = a then g.2 else groupGet t a := by
  simp only [groupGet]
  by_cases h : g.1 = a
  · rw [List.find?_cons_of_pos _ (by simpa using h), if_pos h]
  · rw [List.find?_cons_of_neg _ (by simpa using h), if_neg h]

theorem groupGet_map_ne (gs : List (List Char × List Post)) (k : List Char) (p : Post)
    (a : List Char) (hak : a ≠ k) :
    groupGet (gs.map (fun g => if g.1 = k then (g.1, g.2 ++ [p]) else g)) a =
      groupGet gs a := by
  induction gs with
  | nil => rfl
  | cons g t ih =>
    simp only [List.map_cons]
    have hfst : (if g.1 = k then (g.1, g.2 ++ [p]) else g).1 = g.1 := by
      by_cases hgk : g.1 = k
      · rw [if_pos hgk]
      · rw [if_neg hgk]
    rw [groupGet_cons, groupGet_cons, hfst]
    by_cases hga : g.1 = a
    · rw [if_pos hga, if_pos hga]
      have hgk : ¬ g.1 = k := by rw [hga]; exact hak
      rw [if_neg hgk]
    · rw [if_neg hga, if_neg hga]
      exact ih

theorem groupGet_map_eq (gs : List (List Char × List Post)) (k : List Char) (p : Post)
    (h : groupHasKey gs k = true) :
    groupGet (gs.map (fun g => if g.1 = k then (g.1, g.2 ++ [p]) else g)) k =
      groupGet gs k ++ [p] := by
  induction gs with
  | nil => simp [groupHasKey] at h
  | cons g t ih =>
    simp only [List.map_cons]
    have hfst : (if g.1 = k then (g.1, g.2 ++ [p]) else g).1 = g.1 := by
      by_cases hgk : g.1 = k
      · rw [if_pos hgk]
      · rw [if_neg hgk]
    rw [groupGet_cons, groupGet_cons, hfst]
    by_cases hgk : g.1 = k
    · rw [if_pos hgk, if_pos hgk, if_pos hgk]
    · rw [if_neg hgk, if_neg hgk]
      refine ih ?_
      simp only [groupHasKey, List.any_cons] at h
      rw [show (decide (g.1 = k)) = false by simpa using hgk, Bool.false_or] at h
      exact h

theorem groupGet_append_new (gs : List (List Char × List Post)) (k : List Char)
    (p : Post) (a : List Char) (hk : groupHasKey gs k = false) :
    groupGet (gs ++ [(k, [p])]) a = groupGet gs a ++ (if k = a then [p] else []) := by
  by_cases ha : k = a
  · subst ha
    have hnone : gs.find? (fun g => g.1 = k) = none := by
      rw [List.find?_eq_none]
      intro g hg
      simpa using List.any_eq_false.mp hk g hg
    have h1 : groupGet gs k = [] := by simp [groupGet, hnone]
    rw [h1]
    simp only [groupGet]
    rw [find?_append_of_none _ _ _ hnone]
    rw [List.find?_cons_of_pos _ (by simp)]
    simp
  · rw [if_neg ha]
    cases hfind : gs.find? (fun g => g.1 = a) with
    | some g =>
      simp only [groupGet, find?_append_of_some _ _ _ _ hfind, hfind]
      simp
    | none =>
      simp only [groupGet, find?_append_of_none _ _ _ hfind, hfind]
      rw [List.find?_cons_of_neg _ (by simpa using fun h => ha h)]
      simp

theorem groupGet_add (gs : List (List Char × List Post)) (k : List Char) (p : Post)
    (a : List Char) :
    groupGet (addToGroups gs k p) a = groupGet gs a ++ (if k = a then [p] else []) := by
  unfold addToGroups
  by_cases hk : groupHasKey gs k
  · rw [if_pos hk]
    by_cases ha : k = a
    · subst ha
      rw [if_pos rfl, groupGet_map_eq gs k p hk]
    · rw [if_neg ha, groupGet_map_ne gs k p a (fun h => ha h.symm)]
      simp
  · have hk2 : groupHasKey gs k = false := Bool.eq_false_iff.mpr hk
    rw [if_neg hk]
    exact groupGet_append_new gs k p a hk2

theorem groupGet_foldl (posts : List Post) :
    ∀ (gs : List (List Char × List Post)) (a : List Char),
      groupGet (posts.foldl (fun gs p => addToGroups gs (keyOf p) p) gs) a =
        groupGet gs a ++ posts.filter (fun p => keyOf p == a) := by
  induction posts with
  | nil => intro gs a; simp
  | cons p rest ih =>
    intro gs a
    simp only [List.foldl_cons]
    rw [ih (addToGroups gs (keyOf p) p) a, groupGet_add, List.filter_cons]
    by_cases hp : keyOf p = a
    · rw [if_pos hp, if_pos (by simpa using hp)]
      simp
    · rw [if_neg hp, if_neg (by simpa using hp)]
      simp

theorem groupGet_groupsOf (posts : List Post) (a : List Char) :
    groupGet (groupsOf posts) a = posts.filter (fun p => keyOf p == a) := by
  have h := groupGet_foldl posts [] a
  simpa [groupsOf] using h

theorem addToGroups_keys (gs : List (List Char × List Post)) (k : List Char) (p : Post) :
    (addToGroups gs k p).map Prod.fst =
      if groupHasKey gs k then gs.map Prod.fst else gs.map Prod.fst ++ [k] := by
  unfold addToGroups
  by_cases hk : groupHasKey gs k
  · rw [if_pos hk, if_pos hk, List.map_map]
    refine List.map_congr_left ?_
    intro g _
    by_cases hgk : g.1 = k
    · simp [Function.comp, if_pos hgk, hgk]
    · simp [Function.comp, if_neg hgk]
  · rw [if_neg hk, if_neg hk, List.map_append]
    rfl

theorem groupsOf_keys_nodup_aux (posts : List Post) :
    ∀ gs : List (List Char × List Post), (gs.map Prod.fst).Nodup →
      ((posts.foldl (fun gs p => addToGroups gs (keyOf p) p) gs).map Prod.fst).Nodup := by
  induction posts with
  | nil => intro gs h; exact h
  | cons p rest ih =>
    intro gs h
    simp only [List.foldl_cons]
    refine ih (addToGroups gs (keyOf p) p) ?_
    rw [addToGroups_keys]
    by_cases hk : groupHasKey gs (keyOf p)
    · rw [if_pos hk]; exact h
    · rw [if_neg hk]
      rw [List.nodup_append]
      refine ⟨h, by simp, ?_⟩
      intro x hx
      simp only [List.mem_singleton]
      intro he
      subst he
      have hk2 : groupHasKey gs (keyOf p) = false := Bool.eq_false_iff.mpr hk
      exact anyKey_false_not_mem gs (keyOf p) hk2 hx

theorem groupsOf_keys_nodup (posts : List Post) :
    ((groupsOf posts).map Prod.fst).Nodup :=
  groupsOf_keys_nodup_aux posts [] (by simp)

theorem lexLt_asymm : ∀ a b : List Char, lexLt a b = true → lexLt b a = false := by
  intro a
  induction a with
  | nil =>
    intro b h
    cases b with
    | nil => simp [lexLt] at h
    | cons y bs => rfl
  | cons x as ih =>
    intro b h
    cases b with
    | nil => simp [lexLt] at h
    | cons y bs =>
      simp only [lexLt] at h ⊢
      by_cases hxy : x < y
      · have hyx : ¬ y < x := lt_asymm hxy
        rw [if_neg hyx, if_pos hxy]
      · rw [if_neg hxy] at h
        by_cases hyx : y < x
        · rw [if_pos hyx] at h
          exact absurd h (by simp)
        · rw [if_neg hyx] at h
          rw [if_neg hyx, if_neg hxy]
          exact ih bs h

theorem insertAuthorName_perm (a : List Char) :
    ∀ l : List (List Char), (insertAuthorName a l).Perm (a :: l) := by
  intro l
  induction l with
  | nil => exact List.Perm.refl _
  | cons b bs ih =>
    simp only [insertAuthorName]
    by_cases hc : lexLt (lowerStr b) (lowerStr a)
    · rw [if_pos hc]
      exact (ih.cons b).trans (List.Perm.swap a b bs)
    · rw [if_neg hc]

theorem sortAuthorNames_perm :
    ∀ l : List (List Char), (sortAuthorNames l).Perm l := by
  intro l
  induction l with
  | nil => exact List.Perm.refl _
  | cons a as ih =>
    simp only [sortAuthorNames]
    exact (insertAuthorName_perm a (sortAuthorNames as)).trans (ih.cons a)

theorem insertAuthorName_head? (a : List Char) (l : List (List Char)) :
    (insertAuthorName a l).head? = some a ∨ (insertAuthorName a l).head? = l.head? := by
  cases l with
  | nil => exact Or.inl rfl
  | cons b bs =>
    simp only [insertAuthorName]
    by_cases hc : lexLt (lowerStr b) (lowerStr a)
    · rw [if_pos hc]
      exact Or.inr rfl
    · rw [if_neg hc]
      exact Or.inl rfl

theorem insertAuthorName_chain (a : List Char) :
    ∀ l : List (List Char),
      List.Chain' (fun x y => lexLt (lowerStr y) (lowerStr x) = false) l →
      List.Chain' (fun x y => lexLt (lowerStr y) (lowerStr x) = false)
        (insertAuthorName a l) := by
  intro l
  induction l with
  | nil => intro _; simp [insertAuthorName]
  | cons b bs ih =>
    intro h
    obtain ⟨hb, htail⟩ := List.chain'_cons'.mp h
    simp only [insertAuthorName]
    by_cases hc : lexLt (lowerStr b) (lowerStr a)
    · rw [if_pos hc]
      rw [List.chain'_cons']
      refine ⟨?_, ih htail⟩
      intro y hy
      rcases insertAuthorName_head? a bs with h1 | h1
      · rw [h1] at hy
        simp only [Option.mem_def, Option.some.injEq] at hy
        subst hy
        exact lexLt_asymm _ _ hc
      · rw [h1] at hy
        exact hb y hy
    · rw [if_neg hc]
      rw [List.chain'_cons']
      refine ⟨?_, h⟩
      intro y hy
      simp only [List.head?_cons, Option.mem_def, Option.some.injEq] at hy
      subst hy
      simpa using hc

theorem sortAuthorNames_chain :
    ∀ l : List (List Char),
      List.Chain' (fun x y => lexLt (lowerStr y) (lowerStr x) = false)
        (sortAuthorNames l) := by
  intro l
  induction l with
  | nil => simp [sortAuthorNames]
  | cons a as ih =>
    simp only [sortAuthorNames]
    exact insertAuthorName_chain a (sortAuthorNames as) ih

theorem authorGroups_keys (posts : List Post) :
    (authorGroups posts).map Prod.fst =
      sortAuthorNames ((groupsOf posts).map Prod.fst) := by
  simp only [authorGroups, List.map_map]
  have hcomp : (Prod.fst ∘ fun a => (a, groupGet (groupsOf posts) a)) =
      (id : List Char → List Char) := rfl
  rw [hcomp, List.map_id]

/-- A minimal raw block with the given index and author candidates, used
for the end-to-end grouping example. -/
def blockC8 (i : Nat) (authors : List (List Char)) : RawBlock :=
  ⟨i, "div".toList, [], [], [], "hello".toList, "hello".toList, 5, authors, [], [], []⟩

def pageUrlC8 : List Char := "https://www.facebook.com/group".toList

/-- Claim C8 --- grouping produces one group per distinct resolved author
(keys are duplicate-free), groups are ordered by author name compared
case-insensitively, each group holds exactly the posts whose resolved
author (empty falling back to "Unknown Author") equals its key, and the
3-block example yields exactly the two groups "Jane Doe" (posts 1 and 2)
and "Unknown Author" (post 3), in that order. -/
theorem author_grouping_spec :
    (∀ posts : List Post, ((authorGroups posts).map Prod.fst).Nodup) ∧
    (∀ posts : List Post,
      List.Chain' (fun x y => lexLt (lowerStr y) (lowerStr x) = false)
        ((authorGroups posts).map Prod.fst)) ∧
    (∀ (posts : List Post) (a : List Char) (ps : List Post),
      (a, ps) ∈ authorGroups posts → ps = posts.filter (fun p => keyOf p == a)) ∧
    (authorGroups (adapt_facebook_blocks
        [blockC8 1 ["Jane Doe".toList], blockC8 2 ["Jane Doe".toList], blockC8 3 []]
        pageUrlC8)).map (fun g => (g.1, g.2.map Post.post_index)) =
      [("Jane Doe".toList, [1, 2]), (unknownAuthor, [3])] := by
  refine ⟨?_, ?_, ?_, ?_⟩
  · intro posts
    rw [authorGroups_keys]
    exact ((sortAuthorNames_perm _).symm).nodup (groupsOf_keys_nodup posts)
  · intro posts
    rw [authorGroups_keys]
    exact sortAuthorNames_chain _
  · intro posts a ps hmem
    simp only [authorGroups, List.mem_map] at hmem
    obtain ⟨x, hxmem, hx⟩ := hmem
    have h1 : x = a := congrArg Prod.fst hx
    have h2 : groupGet (groupsOf posts) x = ps := congrArg Prod.snd hx
    subst h1
    rw [← h2]
    exact groupGet_groupsOf posts x
  · decide

/-- Witness for C8: in the 3-block example, the "Jane Doe" group is a
member of the grouping and equals the filter of the adapted posts by that
author, discharging the theorem's membership hypothesis concretely. -/
theorem author_grouping_spec_witness :
    ("Jane Doe".toList,
      [adaptBlock pageUrlC8 (blockC8 1 ["Jane Doe".toList]),
       adaptBlock pageUrlC8 (blockC8 2 ["Jane Doe".toList])]) ∈
      authorGroups (adapt_facebook_blocks
        [blockC8 1 ["Jane Doe".toList], blockC8 2 ["Jane Doe".toList], blockC8 3 []]
        pageUrlC8) ∧
    [adaptBlock pageUrlC8 (blockC8 1 ["Jane Doe".toList]),
     adaptBlock pageUrlC8 (blockC8 2 ["Jane Doe".toList])] =
      (adapt_facebook_blocks
        [blockC8 1 ["Jane Doe".toList], blockC8 2 ["Jane Doe".toList], blockC8 3 []]
        pageUrlC8).filter (fun p => keyOf p == "Jane Doe".toList) :=
  ⟨by decide, author_grouping_spec.2.2.1 _ _ _ (by decide)⟩

/-! ### `facebook_scraper.parse_facebook_date` and `is_within_period`

Time is modelled as seconds (`Int`); `now` is the value of
`datetime.now()` and `nowYear` its year, both passed explicitly (the two
`datetime.now()` calls in the source are microseconds apart and the spec
treats them as one instant). -/

/-- Scanner for `re.search(r'(\d+)\s*(?:minute|min|m)\s*(?:ago)?', ts)`
and its hour/day/week analogues.  Every alternative of a unit group
begins with the same letter `u` and the one-letter alternative suffices,
so the search succeeds exactly on a digit run followed by optional
whitespace and the letter `u`; the leftmost match wins and group 1 is the
maximal digit run.  `run` holds the reversed digits of the pending run
and `gap` records being inside the whitespace after it. -/
def findUnitGo (u : Char) : List Char → List Char → Bool → Option Nat
  | [], _, _ => none
  | c :: cs, run, gap =>
    if run = [] then
      if c.isDigit then findUnitGo u cs [c] false else findUnitGo u cs [] false
    else if gap then
      if pySpace c then findUnitGo u cs run true
      else if c = u then some (natOfDigits run.reverse)
      else if c.isDigit then findUnitGo u cs [c] false
      else findUnitGo u cs [] false
    else
      if c.isDigit then findUnitGo u cs (c :: run) false
      else if pySpace c then findUnitGo u cs run true
      else if c = u then some (natOfDigits run.reverse)
      else findUnitGo u cs [] false

def findUnitValue (u : Char) (cs : List Char) : Option Nat :=
  findUnitGo u cs [] false

/-- Match the regex `\s+at\s+\d+:\d+` at the start of `cs`, returning the
remainder after the match. -/
def matchAtClause (cs : List Char) : Option (List Char) :=
  if cs.takeWhile pySpace = [] then none
  else
    if startsWithL (cs.dropWhile pySpace) ("at".toList) then
      let r2 := (cs.dropWhile pySpace).drop 2
      if r2.takeWhile pySpace = [] then none
      else
        let r3 := r2.dropWhile pySpace
        if r3.takeWhile Char.isDigit = [] then none
        else
          match r3.dropWhile Char.isDigit with
          | ':' :: r5 =>
            if r5.takeWhile Char.isDigit = [] then none
            else some (r5.dropWhile Char.isDigit)
          | _ => none
    else none

/-- `re.sub(r'\s+at\s+\d+:\d+', '', ts)`: scan left to right, deleting
each match and continuing after it.  Fuel bounds the recursion; every
step consumes at least one character, so `cs.length` fuel suffices. -/
def removeAtClauseFuel : Nat → List Char → List Char
  | 0, _ => []
  | _ + 1, [] => []
  | fuel + 1, c :: rest =>
    match matchAtClause (c :: rest) with
    | some r => removeAtClauseFuel fuel r
    | none => c :: removeAtClauseFuel fuel rest

def removeAtClause (cs : List Char) : List Char :=
  removeAtClauseFuel cs.length cs

/-- `strptime`'s `%d` directive at the given position: a one- or
two-digit day in 1..31 consuming the whole digit run (a shorter match
cannot complete the surrounding format). -/
def parseDay (cs : List Char) : Option (Nat × List Char) :=
  if cs.takeWhile Char.isDigit = [] then none
  else if (cs.takeWhile Char.isDigit).length ≤ 2 then
    if 1 ≤ natOfDigits (cs.takeWhile Char.isDigit) ∧
        natOfDigits (cs.takeWhile Char.isDigit) ≤ 31 then
      some (natOfDigits (cs.takeWhile Char.isDigit), cs.dropWhile Char.isDigit)
    else none
  else none

def monthsFull : List (List Char × Nat) :=
  [("january".toList, 1), ("february".toList, 2), ("march".toList, 3),
   ("april".toList, 4), ("may".toList, 5), ("june".toList, 6),
   ("july".toList, 7), ("august".toList, 8), ("september".toList, 9),
   ("october".toList, 10), ("november".toList, 11), ("december".toList, 12)]

def monthsAbbr : List (List Char × Nat) :=
  [("jan".toList, 1), ("feb".toList, 2), ("mar".toList, 3), ("apr".toList, 4),
   ("may".toList, 5), ("jun".toList, 6), ("jul".toList, 7), ("aug".toList, 8),
   ("sep".toList, 9), ("oct".toList, 10), ("nov".toList, 11), ("dec".toList, 12)]

/-- `strptime`'s `%B` / `%b` directive: match a month name from the table
(input is already lowercased; `strptime` matches case-insensitively). -/
def parseMonthFrom (table : List (List Char × Nat)) (cs : List Char) :
    Option (Nat × List Char) :=
  match table with
  | [] => none
  | (name, m) :: rest =>
    if startsWithL cs name then some (m, cs.drop name.length)
    else parseMonthFrom rest cs

/-- The `\s+` that a blank in a `strptime` format compiles to. -/
def skipWs1 (cs : List Char) : Option (List Char) :=
  if cs.takeWhile pySpace = [] then none else some (cs.dropWhile pySpace)

/-- `strptime(date_part, "%d %B")` (or `%d %b`): day, whitespace, month,
end of string. -/
def tryDayMonth (table : List (List Char × Nat)) (cs : List Char) :
    Option (Nat × Nat) :=
  match parseDay cs with
  | none => none
  | some (d, r1) =>
    match skipWs1 r1 with
    | none => none
    | some r2 =>
      match parseMonthFrom table r2 with
      | none => none
      | some (m, r3) => if r3 = [] then some (m, d) else none

/-- `strptime(date_part, "%B %d")` (or `%b %d`): month, whitespace, day,
end of string. -/
def tryMonthDay (table : List (List Char × Nat)) (cs : List Char) :
    Option (Nat × Nat) :=
  match parseMonthFrom table cs with
  | none => none
  | some (m, r1) =>
    match skipWs1 r1 with
    | none => none
    | some r2 =>
      match parseDay r2 with
      | none => none
      | some (d, r3) => if r3 = [] then some (m, d) else none

/-- Days in each month of 1900 (`strptime` builds a year-1900 date, so
February 29 raises and the format is skipped). -/
def monthLen1900 : Nat → Nat
  | 2 => 28
  | 4 => 30
  | 6 => 30
  | 9 => 30
  | 11 => 30
  | _ => 31

/-- The `datetime(1900, month, day)` validity check performed inside
`strptime`; an invalid day raises `ValueError` and the next format is
tried. -/
def checkFmt : Option (Nat × Nat) → Option (Nat × Nat)
  | none => none
  | some (m, d) => if d ≤ monthLen1900 m then some (m, d) else none

/-- Days from the civil epoch 1970-01-01 (standard civil-calendar
arithmetic); used to give `datetime` values a concrete integer model. -/
def daysFromCivil (y : Int) (m d : Nat) : Int :=
  let y2 : Int := if m ≤ 2 then y - 1 else y
  let era : Int := (if 0 ≤ y2 then y2 else y2 - 399) / 400
  let yoe : Int := y2 - era * 400
  let mp : Int := ((m : Int) + 9) % 12
  let doy : Int := (153 * mp + 2) / 5 + (d : Int) - 1
  let doe : Int := yoe * 365 + yoe / 4 - yoe / 100 + doy
  era * 146097 + doe - 719468

/-- `datetime(year, month, day)` at midnight, in seconds. -/
def mkDateTime (y : Int) (m d : Nat) : Int :=
  daysFromCivil y m d * 86400

/-- The four-format loop: `['%d %B', '%B %d', '%d %b', '%b %d']`, first
success wins, `parsed.replace(year=now.year)`. -/
def strptimeDayMonth (cs : List Char) (nowYear : Int) : Option Int :=
  match checkFmt (tryDayMonth monthsFull cs) with
  | some md => some (mkDateTime nowYear md.1 md.2)
  | none =>
    match checkFmt (tryMonthDay monthsFull cs) with
    | some md => some (mkDateTime nowYear md.1 md.2)
    | none =>
      match checkFmt (tryDayMonth monthsAbbr cs) with
      | some md => some (mkDateTime nowYear md.1 md.2)
      | none =>
        match checkFmt (tryMonthDay monthsAbbr cs) with
        | some md => some (mkDateTime nowYear md.1 md.2)
        | none => none

/-- The body of `parse_facebook_date` after `ts = timestamp_str.lower().strip()`. -/
def parseTs (ts : List Char) (now nowYear : Int) : Option Int :=
  match findUnitValue 'm' ts with
  | some v => some (now - (v : Int) * 60)
  | none =>
    match findUnitValue 'h' ts with
    | some v => some (now - (v : Int) * 3600)
    | none =>
      match findUnitValue 'd' ts with
      | some v => some (now - (v : Int) * 86400)
      | none =>
        match findUnitValue 'w' ts with
        | some v => some (now - (v : Int) * 604800)
        | none =>
          if containsSub ts ("yesterday".toList) || containsSub ts ("ieri".toList) then
            some (now - 86400)
          else strptimeDayMonth (removeAtClause ts) nowYear

/-- `facebook_scraper.parse_facebook_date` (`None` is `none`). -/
def parse_facebook_date (timestamp_str : List Char) (now nowYear : Int) : Option Int :=
  if timestamp_str = [] then none
  else parseTs (pyStrip (lowerStr timestamp_str)) now nowYear

/-- `facebook_scraper.is_within_period`. -/
def is_within_period (timestamp_str : List Char) (days : Nat) (now nowYear : Int) :
    Bool :=
  if days = 0 then true
  else
    match parse_facebook_date timestamp_str now nowYear with
    | none => true
    | some d => decide (now - (days : Int) * 86400 ≤ d)

/-! ### Lemmas for the date parser -/

theorem toLower_digit (c : Char) (h : c.isDigit = true) : c.toLower = c := by
  simp only [Char.isDigit, Bool.and_eq_true, decide_eq_true_eq, Char.le_def] at h
  simp only [Char.toLower, Char.toNat]
  have h2 : c.val.toNat ≤ 57 := h.2
  rw [if_neg]
  omega

theorem digit_not_space (c : Char) (h : c.isDigit = true) : pySpace c = false := by
  have h1 : c ≠ ' ' := by intro he; rw [he] at h; exact absurd h (by decide)
  have h2 : c ≠ '\t' := by intro he; rw [he] at h; exact absurd h (by decide)
  have h3 : c ≠ '\n' := by intro he; rw [he] at h; exact absurd h (by decide)
  have h4 : c ≠ '\r' := by intro he; rw [he] at h; exact absurd h (by decide)
  have h5 : c ≠ '\x0b' := by intro he; rw [he] at h; exact absurd h (by decide)
  have h6 : c ≠ '\x0c' := by intro he; rw [he] at h; exact absurd h (by decide)
  simp [pySpace, h1, h2, h3, h4, h5, h6]

theorem lowerStr_digits (ds : List Char) (hd : ∀ c ∈ ds, c.isDigit = true) :
    lowerStr ds = ds := by
  have h2 : List.map Char.toLower ds = List.map id ds :=
    List.map_congr_left (fun c hc => toLower_digit c (hd c hc))
  simp only [lowerStr]
  rw [h2, List.map_id]

theorem pyStrip_digits_append (ds rest : List Char) (hne : ds ≠ [])
    (hd : ∀ c ∈ ds, c.isDigit = true) (hrne : rest ≠ [])
    (hrlast : ∀ c, rest.getLast? = some c → pySpace c = false) :
    pyStrip (ds ++ rest) = ds ++ rest := by
  refine stripBoth_eq_self pySpace _ ?_ ?_
  · intro c hc
    rw [List.head?_append_of_ne_nil ds hne] at hc
    exact digit_not_space c (hd c (List.mem_of_mem_head? (Option.mem_def.mpr hc)))
  · intro c hc
    rw [List.getLast?_append_of_ne_nil ds hrne] at hc
    exact hrlast c hc

theorem findUnitGo_digits (u : Char) :
    ∀ (ds rest run : List Char), (∀ c ∈ ds, c.isDigit = true) → run ≠ [] →
      findUnitGo u (ds ++ rest) run false = findUnitGo u rest (ds.reverse ++ run) false := by
  intro ds
  induction ds with
  | nil => intro rest run _ _; simp
  | cons c ds' ih =>
    intro rest run hd hrun
    have hc : c.isDigit = true := hd c (List.mem_cons_self _ _)
    simp only [List.cons_append, findUnitGo]
    rw [if_neg hrun, if_neg (by simp), if_pos hc]
    simp only [List.append_eq]
    rw [ih rest (c :: run) (fun x hx => hd x (List.mem_cons_of_mem c hx)) (by simp)]
    congr 1
    simp

theorem findUnitValue_digits_space (u : Char) (ds rest' : List Char) (hne : ds ≠ [])
    (hd : ∀ c ∈ ds, c.isDigit = true) :
    findUnitValue u (ds ++ ' ' :: rest') = findUnitGo u rest' ds.reverse true := by
  cases ds with
  | nil => exact absurd rfl hne
  | cons c ds' =>
    have hc : c.isDigit = true := hd c (List.mem_cons_self _ _)
    simp only [findUnitValue, List.cons_append, findUnitGo]
    rw [if_pos trivial, if_pos hc]
    simp only [List.append_eq]
    rw [findUnitGo_digits u ds' (' ' :: rest') [c]
      (fun x hx => hd x (List.mem_cons_of_mem c hx)) (by simp)]
    have hrun : ds'.reverse ++ [c] ≠ [] := by simp
    simp only [findUnitGo]
    rw [if_neg hrun, if_neg (by simp), if_neg (by decide), if_pos (by decide)]
    congr 1
    simp

theorem findUnitGo_gap_hit (u : Char) (run cs : List Char) (hrun : run ≠ [])
    (hs : pySpace u = false) :
    findUnitGo u (u :: cs) run true = some (natOfDigits run.reverse) := by
  simp only [findUnitGo]
  rw [if_neg hrun, if_pos trivial, if_neg (by simp [hs]), if_pos trivial]

theorem findUnitGo_gap_miss (u c : Char) (run cs : List Char) (hrun : run ≠ [])
    (hs : pySpace c = false) (hne : c ≠ u) (hd : c.isDigit = false) :
    findUnitGo u (c :: cs) run true = findUnitGo u cs [] false := by
  simp only [findUnitGo]
  rw [if_neg hrun, if_pos trivial, if_neg (by simp [hs]), if_neg hne, if_neg (by simp [hd])]

theorem parse_digits_rest (ds rest : List Char) (now y : Int) (hne : ds ≠ [])
    (hd : ∀ c ∈ ds, c.isDigit = true) (hrl : lowerStr rest = rest) (hrne : rest ≠ [])
    (hrlast : ∀ c, rest.getLast? = some c → pySpace c = false) :
    parse_facebook_date (ds ++ rest) now y = parseTs (ds ++ rest) now y := by
  have hne2 : ds ++ rest ≠ [] := by
    intro h
    exact hne (List.append_eq_nil.mp h).1
  have hlow : lowerStr (ds ++ rest) = ds ++ rest := by
    simp only [lowerStr, List.map_append]
    rw [show List.map Char.toLower ds = lowerStr ds from rfl, lowerStr_digits ds hd,
      show List.map Char.toLower rest = lowerStr rest from rfl, hrl]
  simp only [parse_facebook_date, if_neg hne2]
  rw [hlow, pyStrip_digits_append ds rest hne hd hrne hrlast]

theorem parse_ten_d (now y : Int) :
    parse_facebook_date ("10 d".toList) now y = some (now - 864000) := by
  have h1 : pyStrip (lowerStr ("10 d".toList)) = "10 d".toList := by decide
  simp only [parse_facebook_date,
    if_neg (show ¬("10 d".toList : List Char) = [] by decide), h1]
  have hm : findUnitValue 'm' ("10 d".toList) = none := by decide
  have hh : findUnitValue 'h' ("10 d".toList) = none := by decide
  have hd : findUnitValue 'd' ("10 d".toList) = some 10 := by decide
  simp only [parseTs, hm, hh, hd]
  norm_num

/-- Claim C5 --- the period filter keeps a record iff the window is 0, or
its timestamp fails to parse, or its parsed date is at least `now` minus
the window; in particular a record stamped "10 d" (10 days ago) is
excluded at window 7 and kept at window 30. -/
theorem is_within_period_spec :
    (∀ (ts : List Char) (days : Nat) (now y : Int),
      is_within_period ts days now y = true ↔
        (days = 0 ∨ parse_facebook_date ts now y = none ∨
          ∃ d, parse_facebook_date ts now y = some d ∧ now - (days : Int) * 86400 ≤ d)) ∧
    (∀ now y : Int, is_within_period ("10 d".toList) 7 now y = false) ∧
    (∀ now y : Int, is_within_period ("10 d".toList) 30 now y = true) := by
  refine ⟨?_, ?_, ?_⟩
  · intro ts days now y
    unfold is_within_period
    by_cases h0 : days = 0
    · rw [if_pos h0]
      simp [h0]
    · rw [if_neg h0]
      cases hp : parse_facebook_date ts now y with
      | none => simp [h0]
      | some d =>
        simp only [decide_eq_true_eq]
        constructor
        · intro h
          exact Or.inr (Or.inr ⟨d, rfl, h⟩)
        · intro h
          rcases h with h | h | ⟨e, he, hle⟩
          · exact absurd h h0
          · exact absurd h (Option.some_ne_none d)
          · rw [Option.some.injEq] at he
            rw [he]
            exact hle
  · intro now y
    unfold is_within_period
    rw [if_neg (by decide), parse_ten_d]
    have hlt : ¬ (now - (7 : Nat) * 86400 ≤ now - 864000) := by
      push_cast
      omega
    simp [hlt]
    omega
  · intro now y
    unfold is_within_period
    rw [if_neg (by decide), parse_ten_d]
    have hle : now - (30 : Nat) * 86400 ≤ now - 864000 := by
      push_cast
      omega
    simp [hle]
    omega

/-- Witness for C5: concrete instances of all three conjuncts (the
exclusion at window 7, the retention at window 30, and the keep-iff
characterization on an unparseable timestamp). -/
theorem is_within_period_spec_witness :
    is_within_period ("10 d".toList) 7 0 0 = false ∧
    is_within_period ("10 d".toList) 30 0 0 = true ∧
    (is_within_period ("abc".toList) 7 0 0 = true ↔
      (7 = 0 ∨ parse_facebook_date ("abc".toList) 0 0 = none ∨
        ∃ d, parse_facebook_date ("abc".toList) 0 0 = some d ∧
          (0 : Int) - (7 : Nat) * 86400 ≤ d)) :=
  ⟨is_within_period_spec.2.1 0 0, is_within_period_spec.2.2 0 0,
   is_within_period_spec.1 ("abc".toList) 7 0 0⟩

theorem parse_rel_min (ds : List Char) (now y : Int) (hne : ds ≠ [])
    (hd : ∀ c ∈ ds, c.isDigit = true) :
    parse_facebook_date (ds ++ " min ago".toList) now y =
      some (now - (natOfDigits ds : Int) * 60) := by
  rw [parse_digits_rest ds (" min ago".toList) now y hne hd (by decide) (by decide)
    (by decide)]
  have hm : findUnitValue 'm' (ds ++ " min ago".toList) = some (natOfDigits ds) := by
    rw [show (" min ago".toList : List Char) = ' ' :: "min ago".toList from rfl,
      findUnitValue_digits_space 'm' ds ("min ago".toList) hne hd,
      show ("min ago".toList : List Char) = 'm' :: "in ago".toList from rfl,
      findUnitGo_gap_hit 'm' ds.reverse ("in ago".toList) (by simpa using hne) (by decide),
      List.reverse_reverse]
  simp only [parseTs, hm]

theorem parse_rel_hours (ds : List Char) (now y : Int) (hne : ds ≠ [])
    (hd : ∀ c ∈ ds, c.isDigit = true) :
    parse_facebook_date (ds ++ " hours ago".toList) now y =
      some (now - (natOfDigits ds : Int) * 3600) := by
  rw [parse_digits_rest ds (" hours ago".toList) now y hne hd (by decide) (by decide)
    (by decide)]
  have hsp : (" hours ago".toList : List Char) = ' ' :: "hours ago".toList := rfl
  have hsp2 : ("hours ago".toList : List Char) = 'h' :: "ours ago".toList := rfl
  have hm : findUnitValue 'm' (ds ++ " hours ago".toList) = none := by
    rw [hsp, findUnitValue_digits_space 'm' ds ("hours ago".toList) hne hd, hsp2,
      findUnitGo_gap_miss 'm' 'h' ds.reverse ("ours ago".toList) (by simpa using hne)
        (by decide) (by decide) (by decide)]
    decide
  have hh : findUnitValue 'h' (ds ++ " hours ago".toList) = some (natOfDigits ds) := by
    rw [hsp, findUnitValue_digits_space 'h' ds ("hours ago".toList) hne hd, hsp2,
      findUnitGo_gap_hit 'h' ds.reverse ("ours ago".toList) (by simpa using hne) (by decide),
      List.reverse_reverse]
  simp only [parseTs, hm, hh]

theorem parse_rel_days (ds : List Char) (now y : Int) (hne : ds ≠ [])
    (hd : ∀ c ∈ ds, c.isDigit = true) :
    parse_facebook_date (ds ++ " days".toList) now y =
      some (now - (natOfDigits ds : Int) * 86400) := by
  rw [parse_digits_rest ds (" days".toList) now y hne hd (by decide) (by decide)
    (by decide)]
  have hsp : (" days".toList : List Char) = ' ' :: "days".toList := rfl
  have hsp2 : ("days".toList : List Char) = 'd' :: "ays".toList := rfl
  have hm : findUnitValue 'm' (ds ++ " days".toList) = none := by
    rw [hsp, findUnitValue_digits_space 'm' ds ("days".toList) hne hd, hsp2,
      findUnitGo_gap_miss 'm' 'd' ds.reverse ("ays".toList) (by simpa using hne)
        (by decide) (by decide) (by decide)]
    decide
  have hh : findUnitValue 'h' (ds ++ " days".toList) = none := by
    rw [hsp, findUnitValue_digits_space 'h' ds ("days".toList) hne hd, hsp2,
      findUnitGo_gap_miss 'h' 'd' ds.reverse ("ays".toList) (by simpa using hne)
        (by decide) (by decide) (by decide)]
    decide
  have hdd : findUnitValue 'd' (ds ++ " days".toList) = some (natOfDigits ds) := by
    rw [hsp, findUnitValue_digits_space 'd' ds ("days".toList) hne hd, hsp2,
      findUnitGo_gap_hit 'd' ds.reverse ("ays".toList) (by simpa using hne) (by decide),
      List.reverse_reverse]
  simp only [parseTs, hm, hh, hdd]

theorem parse_rel_weeks (ds : List Char) (now y : Int) (hne : ds ≠ [])
    (hd : ∀ c ∈ ds, c.isDigit = true) :
    parse_facebook_date (ds ++ " w".toList) now y =
      some (now - (natOfDigits ds : Int) * 604800) := by
  rw [parse_digits_rest ds (" w".toList) now y hne hd (by decide) (by decide)
    (by decide)]
  have hsp : (" w".toList : List Char) = ' ' :: "w".toList := rfl
  have hsp2 : ("w".toList : List Char) = 'w' :: [] := rfl
  have hm : findUnitValue 'm' (ds ++ " w".toList) = none := by
    rw [hsp, findUnitValue_digits_space 'm' ds ("w".toList) hne hd, hsp2,
      findUnitGo_gap_miss 'm' 'w' ds.reverse [] (by simpa using hne)
        (by decide) (by decide) (by decide)]
    decide
  have hh : findUnitValue 'h' (ds ++ " w".toList) = none := by
    rw [hsp, findUnitValue_digits_space 'h' ds ("w".toList) hne hd, hsp2,
      findUnitGo_gap_miss 'h' 'w' ds.reverse [] (by simpa using hne)
        (by decide) (by decide) (by decide)]
    decide
  have hdd : findUnitValue 'd' (ds ++ " w".toList) = none := by
    rw [hsp, findUnitValue_digits_space 'd' ds ("w".toList) hne hd, hsp2,
      findUnitGo_gap_miss 'd' 'w' ds.reverse [] (by simpa using hne)
        (by decide) (by decide) (by decide)]
    decide
  have hw : findUnitValue 'w' (ds ++ " w".toList) = some (natOfDigits ds) := by
    rw [hsp, findUnitValue_digits_space 'w' ds ("w".toList) hne hd, hsp2,
      findUnitGo_gap_hit 'w' ds.reverse [] (by simpa using hne) (by decide),
      List.reverse_reverse]
  simp only [parseTs, hm, hh, hdd, hw]

/-- Claim C6 (amended) --- `parse_facebook_date` returns: `now` minus the
stated amount for relative durations "N min/hours/days/w (ago)" (any
digit string N); `now` minus one day for inputs containing "yesterday" or
the localized "ieri"; a date in the caller's current year for day+month
or month+day text (full or abbreviated month, an optional trailing "at
HH:MM" clause stripped) --- but only when no relative-duration pattern
fires first, which excludes month names starting with a duration letter
after a day number (e.g. "14 March"); and `none` (never an error) for
unparseable input such as the empty string or "hello world". -/
theorem parse_facebook_date_formats :
    (∀ now y : Int, parse_facebook_date [] now y = none) ∧
    (∀ (ds : List Char) (now y : Int), ds ≠ [] → (∀ c ∈ ds, c.isDigit = true) →
      parse_facebook_date (ds ++ " min ago".toList) now y =
        some (now - (natOfDigits ds : Int) * 60)) ∧
    (∀ (ds : List Char) (now y : Int), ds ≠ [] → (∀ c ∈ ds, c.isDigit = true) →
      parse_facebook_date (ds ++ " hours ago".toList) now y =
        some (now - (natOfDigits ds : Int) * 3600)) ∧
    (∀ (ds : List Char) (now y : Int), ds ≠ [] → (∀ c ∈ ds, c.isDigit = true) →
      parse_facebook_date (ds ++ " days".toList) now y =
        some (now - (natOfDigits ds : Int) * 86400)) ∧
    (∀ (ds : List Char) (now y : Int), ds ≠ [] → (∀ c ∈ ds, c.isDigit = true) →
      parse_facebook_date (ds ++ " w".toList) now y =
        some (now - (natOfDigits ds : Int) * 604800)) ∧
    (∀ now y : Int, parse_facebook_date ("Yesterday at 15:30".toList) now y =
      some (now - 86400)) ∧
    (∀ now y : Int, parse_facebook_date ("Ieri alle 15:30".toList) now y =
      some (now - 86400)) ∧
    (∀ now y : Int, parse_facebook_date ("14 November at 10:23".toList) now y =
      some (mkDateTime y 11 14)) ∧
    (∀ now y : Int, parse_facebook_date ("November 14".toList) now y =
      some (mkDateTime y 11 14)) ∧
    (∀ now y : Int, parse_facebook_date ("25 Jan".toList) now y =
      some (mkDateTime y 1 25)) ∧
    (∀ now y : Int, parse_facebook_date ("hello world".toList) now y = none) := by
  refine ⟨fun now y => by simp [parse_facebook_date], parse_rel_min, parse_rel_hours,
    parse_rel_days, parse_rel_weeks, ?_, ?_, ?_, ?_, ?_, ?_⟩
  · intro now y
    have h1 : pyStrip (lowerStr ("Yesterday at 15:30".toList)) =
        "yesterday at 15:30".toList := by decide
    simp only [parse_facebook_date,
      if_neg (show ¬("Yesterday at 15:30".toList : List Char) = [] by decide), h1]
    have hm : findUnitValue 'm' ("yesterday at 15:30".toList) = none := by decide
    have hh : findUnitValue 'h' ("yesterday at 15:30".toList) = none := by decide
    have hd : findUnitValue 'd' ("yesterday at 15:30".toList) = none := by decide
    have hw : findUnitValue 'w' ("yesterday at 15:30".toList) = none := by decide
    have hy : (containsSub ("yesterday at 15:30".toList) ("yesterday".toList) ||
        containsSub ("yesterday at 15:30".toList) ("ieri".toList)) = true := by decide
    simp only [parseTs, hm, hh, hd, hw]
    rw [if_pos hy]
  · intro now y
    have h1 : pyStrip (lowerStr ("Ieri alle 15:30".toList)) =
        "ieri alle 15:30".toList := by decide
    simp only [parse_facebook_date,
      if_neg (show ¬("Ieri alle 15:30".toList : List Char) = [] by decide), h1]
    have hm : findUnitValue 'm' ("ieri alle 15:30".toList) = none := by decide
    have hh : findUnitValue 'h' ("ieri alle 15:30".toList) = none := by decide
    have hd : findUnitValue 'd' ("ieri alle 15:30".toList) = none := by decide
    have hw : findUnitValue 'w' ("ieri alle 15:30".toList) = none := by decide
    have hy : (containsSub ("ieri alle 15:30".toList) ("yesterday".toList) ||
        containsSub ("ieri alle 15:30".toList) ("ieri".toList)) = true := by decide
    simp only [parseTs, hm, hh, hd, hw]
    rw [if_pos hy]
  · intro now y
    have h1 : pyStrip (lowerStr ("14 November at 10:23".toList)) =
        "14 november at 10:23".toList := by decide
    simp only [parse_facebook_date,
      if_neg (show ¬("14 November at 10:23".toList : List Char) = [] by decide), h1]
    have hm : findUnitValue 'm' ("14 november at 10:23".toList) = none := by decide
    have hh : findUnitValue 'h' ("14 november at 10:23".toList) = none := by decide
    have hd : findUnitValue 'd' ("14 november at 10:23".toList) = none := by decide
    have hw : findUnitValue 'w' ("14 november at 10:23".toList) = none := by decide
    have hy : (containsSub ("14 november at 10:23".toList) ("yesterday".toList) ||
        containsSub ("14 november at 10:23".toList) ("ieri".toList)) = false := by decide
    have hra : removeAtClause ("14 november at 10:23".toList) =
        "14 november".toList := by decide
    have hfmt : checkFmt (tryDayMonth monthsFull ("14 november".toList)) =
        some (11, 14) := by decide
    simp only [parseTs, hm, hh, hd, hw]
    rw [if_neg (by decide), hra]
    simp only [strptimeDayMonth, hfmt]
  · intro now y
    have h1 : pyStrip (lowerStr ("November 14".toList)) = "november 14".toList := by
      decide
    simp only [parse_facebook_date,
      if_neg (show ¬("November 14".toList : List Char) = [] by decide), h1]
    have hm : findUnitValue 'm' ("november 14".toList) = none := by decide
    have hh : findUnitValue 'h' ("november 14".toList) = none := by decide
    have hd : findUnitValue 'd' ("november 14".toList) = none := by decide
    have hw : findUnitValue 'w' ("november 14".toList) = none := by decide
    have hy : (containsSub ("november 14".toList) ("yesterday".toList) ||
        containsSub ("november 14".toList) ("ieri".toList)) = false := by decide
    have hra : removeAtClause ("november 14".toList) = "november 14".toList := by decide
    have hf1 : checkFmt (tryDayMonth monthsFull ("november 14".toList)) = none := by
      decide
    have hf2 : checkFmt (tryMonthDay monthsFull ("november 14".toList)) =
        some (11, 14) := by decide
    simp only [parseTs, hm, hh, hd, hw]
    rw [if_neg (by decide), hra]
    simp only [strptimeDayMonth, hf1, hf2]
  · intro now y
    have h1 : pyStrip (lowerStr ("25 Jan".toList)) = "25 jan".toList := by decide
    simp only [parse_facebook_date,
      if_neg (show ¬("25 Jan".toList : List Char) = [] by decide), h1]
    have hm : findUnitValue 'm' ("25 jan".toList) = none := by decide
    have hh : findUnitValue 'h' ("25 jan".toList) = none := by decide
    have hd : findUnitValue 'd' ("25 jan".toList) = none := by decide
    have hw : findUnitValue 'w' ("25 jan".toList) = none := by decide
    have hy : (containsSub ("25 jan".toList) ("yesterday".toList) ||
        containsSub ("25 jan".toList) ("ieri".toList)) = false := by decide
    have hra : removeAtClause ("25 jan".toList) = "25 jan".toList := by decide
    have hf1 : checkFmt (tryDayMonth monthsFull ("25 jan".toList)) = none := by decide
    have hf2 : checkFmt (tryMonthDay monthsFull ("25 jan".toList)) = none := by decide
    have hf3 : checkFmt (tryDayMonth monthsAbbr ("25 jan".toList)) =
        some (1, 25) := by decide
    simp only [parseTs, hm, hh, hd, hw]
    rw [if_neg (by decide), hra]
    simp only [strptimeDayMonth, hf1, hf2, hf3]
  · intro now y
    have h1 : pyStrip (lowerStr ("hello world".toList)) = "hello world".toList := by
      decide
    simp only [parse_facebook_date,
      if_neg (show ¬("hello world".toList : List Char) = [] by decide), h1]
    have hm : findUnitValue 'm' ("hello world".toList) = none := by decide
    have hh : findUnitValue 'h' ("hello world".toList) = none := by decide
    have hd : findUnitValue 'd' ("hello world".toList) = none := by decide
    have hw : findUnitValue 'w' ("hello world".toList) = none := by decide
    have hy : (containsSub ("hello world".toList) ("yesterday".toList) ||
        containsSub ("hello world".toList) ("ieri".toList)) = false := by decide
    have hra : removeAtClause ("hello world".toList) = "hello world".toList := by decide
    have hf1 : checkFmt (tryDayMonth monthsFull ("hello world".toList)) = none := by
      decide
    have hf2 : checkFmt (tryMonthDay monthsFull ("hello world".toList)) = none := by
      decide
    have hf3 : checkFmt (tryDayMonth monthsAbbr ("hello world".toList)) = none := by
      decide
    have hf4 : checkFmt (tryMonthDay monthsAbbr ("hello world".toList)) = none := by
      decide
    simp only [parseTs, hm, hh, hd, hw]
    rw [if_neg (by decide), hra]
    simp only [strptimeDayMonth, hf1, hf2, hf3, hf4]

/-- Counterexample for C6 as stated: "14 March at 10:23" is day+month
text with a trailing "at HH:MM" clause, yet the code parses it as a
relative duration (the `\d+\s*(?:minute|min|m)` pattern matches "14 m" of
"14 march"), yielding now minus 14 minutes (at `now = 0`, `-840`) rather
than March 14 of the current year. -/
theorem parse_march_counterexample :
    parse_facebook_date ("14 March at 10:23".toList) 0 2026 = some (-840) ∧
    (-840 : Int) ≠ mkDateTime 2026 3 14 := by
  constructor
  · decide
  · decide

/-- Witness for C6: the relative-minutes conjunct applied at the digit
string "10", with both hypotheses discharged concretely. -/
theorem parse_facebook_date_formats_witness :
    parse_facebook_date ("10 min ago".toList) 0 0 = some (-600) ∧
    parse_facebook_date ("10".toList ++ " min ago".toList) 0 0 =
      some (0 - (natOfDigits ("10".toList) : Int) * 60) :=
  ⟨by decide,
   parse_facebook_date_formats.2.1 ("10".toList) 0 0 (by decide) (by decide)⟩

end FBScraper
